import Mathlib

/-!
Verification development for the `react-json-doc` schema documentation renderer
(`sources/index.tsx`, the `JsonDoc` component).

The renderer walks a JSON-schema-like tree and emits tokens into a mutable
layout buffer: a list of sections, each holding lines of tokens.  We embed the
walker as explicit state passing over `RState`, with `Except RenderError` for
the exceptions the code throws and a fuel argument for the non-structural
recursion of `process` (the source recursion is bounded by the schema tree).

Modelling notes, recorded once here:
* The JS closure `onTokenPush` stored in a mutable variable is defunctionalized:
  the only closure ever stored is the hook armed by `indentedBlock`, which
  captures the container's `foldStyle` and the local `isEmpty` flag.  We keep
  `hook : Option (Option Bool)` (the armed fold style) and a stack
  `frames : List Bool` of the `isEmpty` locals of the active `indentedBlock`
  calls (innermost first).  In the source the hook is always consumed by the
  first emission after arming and re-armed only after a `pushToken` has
  cleared it, so the armed hook always belongs to the innermost frame.
* React nodes are abstracted by their payload: a section header is the
  description string it renders, link/identifier tokens carry their text and
  anchor.  Styling is dropped; it carries no layout information.
* Stacks that the source accesses at `length - 1` (`isInlineContext`,
  `frames`) are stored innermost-first, so push is cons and the top is the
  head.  `sections`, the lines of a section and the tokens of a line are kept
  in emission order as in the source.
* `value !== null ? typeof value : 'null'` and JS truthiness are modelled by
  `valueTypeOf` and `truthy`.  Property access `example[key]` is `jsIndex`
  (object key lookup, array or string `length`/index, `none` for the rest);
  reading a property of `undefined` or of `null` (a JS TypeError) is the
  `hostTypeError` outcome.  Forwarding the possibly-undefined value `examples[0][key]` into a
  child is modelled with `Option JsonValue`; an explicitly assigned
  `undefined` field behaves like an absent one for every read the code
  performs, which is how `forwardExample` encodes it.
* `key.match(new RegExp(pattern))` uses the host regular-expression engine;
  the embedding takes the boolean test as a parameter `rt` of the renderer,
  exactly as the link component is a parameter of `JsonDoc`.
-/

namespace ReactJsonDoc

/-- JSON values: the literal data carried by `examples`, `default`, `enum`,
`exampleItems` and example objects. -/
inductive JsonValue where
  | null
  | bool (b : Bool)
  | num (n : Int)
  | str (s : String)
  | arr (xs : List JsonValue)
  | obj (fields : List (String × JsonValue))

/-- JS truthiness of a `JsonValue` (`NaN` and `undefined` are outside the model;
arrays and objects are always truthy). -/
def truthy : JsonValue → Bool
  | .null => false
  | .bool b => b
  | .num n => n != 0
  | .str s => s != ""
  | .arr _ => true
  | .obj _ => true

/-- Model of `value !== null ? typeof value : 'null'` used by `pushTyped`. -/
def valueTypeOf : JsonValue → String
  | .null => "null"
  | .bool _ => "boolean"
  | .num _ => "number"
  | .str _ => "string"
  | .arr _ => "object"
  | .obj _ => "object"

/-- Digit-sequence parse used to model JS numeric property keys
(implemented on the character list so concrete runs reduce in the kernel). -/
def digitsToNat? : List Char → Nat → Option Nat
  | [], acc => some acc
  | c :: cs, acc =>
    if 48 ≤ c.toNat && c.toNat ≤ 57 then digitsToNat? cs (acc * 10 + (c.toNat - 48))
    else none

/-- Model of a JS numeric index key: a non-empty all-digit string. -/
def jsToNat? (s : String) : Option Nat :=
  match s.data with
  | [] => none
  | cs => digitsToNat? cs 0

/-- Model of the JS property read `v[key]`: object key lookup (JS object keys
are unique, first match), `length` and numeric indices for arrays and strings,
`none` (undefined) otherwise. -/
def jsIndex : JsonValue → String → Option JsonValue
  | .obj fields, key => (fields.find? (fun f => f.1 == key)).map (·.2)
  | .arr xs, key =>
    if key == "length" then some (.num xs.length)
    else match jsToNat? key with
      | some i => xs.get? i
      | none => none
  | .str s, key =>
    if key == "length" then some (.num s.length)
    else match jsToNat? key with
      | some i => (s.toList.get? i).map (fun c => .str (String.mk [c]))
      | none => none
  | _, _ => none

/-- Value of the `type` field of a schema node: absent, a single type string,
or an array of type strings. -/
inductive TypeField where
  | missing
  | single (t : String)
  | multi (ts : List String)
  deriving DecidableEq

/-- Schema node, with the fields the source reads (`sources/index.tsx` treats
nodes as untyped objects; these are exactly the fields it accesses).  The
underscore-prefixed fallbacks `_exampleKeys` / `_exampleItems` of the source
are named `uExampleKeys` / `uExampleItems`.  `exampleItems` is a raw
`JsonValue` because `forwardExample` assigns an arbitrary example value to it;
iteration coerces non-arrays to zero iterations exactly as `.length` being
`undefined` does in JS.  `ref` is the `$ref` field. -/
structure SchemaNode where
  type : TypeField := .missing
  enum : Option (List JsonValue) := none
  examples : Option (List JsonValue) := none
  default : Option JsonValue := none
  title : Option String := none
  description : Option String := none
  properties : Option (List (String × SchemaNode))
  patternProperties : Option (List (String × SchemaNode))
  exampleKeys : Option (List String) := none
  uExampleKeys : Option (List String) := none
  items : Option SchemaNode
  prefixItems : Option (List SchemaNode)
  exampleItems : Option JsonValue := none
  uExampleItems : Option JsonValue := none
  foldStyle : Option Bool := none
  ref : Option String := none

/-- Node with every field absent: the base the concrete documents below
extend, a node literal carrying none of the recognised fields. -/
def emptyNode : SchemaNode :=
  { properties := none, patternProperties := none, items := none, prefixItems := none }

/-- The token vocabulary of `pushToken` (the `TokenType` enum). -/
inductive TokenType where
  | L_CURLY | R_CURLY | L_BRACKET | R_BRACKET | COMMA | COLON | PIPE | NL | SPACE
  deriving DecidableEq

/-- Renderable atoms stored in a line, abstracting the React nodes the source
pushes: `syn` is `pushSyntaxToken` output, `space` the raw `' '` string of the
`SPACE` case, `lit` a literal value (`pushNull` / `pushNumber` / `pushBoolean`
/ `pushString`, which differ only in styling), `ident` an identifier link with
its anchor target (`none` models the JS `null` id), and `see` the
`pushReference` pointer, whose link target anchor is the carried name. -/
inductive Tok where
  | syn (raw : String)
  | space
  | lit (v : JsonValue)
  | ident (name : String) (anchor : Option String)
  | see (name : String)

/-- Line of the layout buffer: `{indent: number, tokens: [...]}`. -/
structure Line where
  indent : Nat
  tokens : List Tok

/-- Section of the layout buffer.  The header is the description string the
annotation renders (`none` when the section has no header). -/
structure Sect where
  id : Option String
  header : Option String
  closed : Bool
  lines : List Line

/-- Mutable state of one render pass: the accumulator variables of `JsonDoc`. -/
structure RState where
  sections : List Sect
  idSegments : List String
  indentCount : Nat
  isInlineContext : List Bool
  hook : Option (Option Bool)
  frames : List Bool

/-- Initial state of a render pass: one header-less open section with a single
empty line, empty path, zero indent, inline-context stack `[false]`. -/
def initState : RState :=
  { sections := [⟨none, none, false, [⟨0, []⟩]⟩]
    idSegments := []
    indentCount := 0
    isInlineContext := [false]
    hook := none
    frames := [] }

/-- Errors thrown by the renderer.  `hostTypeError` is a JS `TypeError`
(reading a property of `undefined`), `outOfFuel` is the embedding's fuel
exhaustion (unreachable for enough fuel). -/
inductive RenderError where
  | missingExample (path : String)
  | unsupportedType (t : String) (path : String)
  | unsupportedExampleKeys (path : String)
  | hostTypeError
  | outOfFuel
  deriving DecidableEq

/-- Message of each thrown error, as built by the source's template strings. -/
def RenderError.message : RenderError → String
  | .missingExample p => "Missing example (in " ++ p ++ ")"
  | .unsupportedType t p => "Unsupported type " ++ t ++ " (in " ++ p ++ ")"
  | .unsupportedExampleKeys p =>
    "Using exampleKeys without patternProperties is not supported (in " ++ p ++ ")"
  | .hostTypeError => "TypeError"
  | .outOfFuel => "out of fuel"

/-- Replace the last element of a list by `f` applied to it (the source's
in-place mutation of `xs[xs.length - 1]`). -/
def updateLast (f : α → α) : List α → List α
  | [] => []
  | [x] => [f x]
  | x :: xs => x :: updateLast f xs

/-- Last element of the section list; sections are never removed and the list
starts non-empty, so the default is never used during a render. -/
def lastSection (s : RState) : Sect :=
  s.sections.getLast?.getD ⟨none, none, false, []⟩

/-- Apply `f` to the last section (the source's mutation of
`sections[sections.length - 1]`). -/
def mapLastSection (f : Sect → Sect) (s : RState) : RState :=
  { s with sections := updateLast f s.sections }

/-- The `startNewSection(header)` helper: appends a section whose id is the
dot-joined current property path when a header is supplied, `null` otherwise. -/
def startNewSectionSt (header : Option String) (s : RState) : RState :=
  { s with sections := s.sections ++ [⟨if header.isSome then some (String.intercalate "." s.idSegments) else none, header, false, [⟨0, []⟩]⟩] }

/-- The `closeSection()` helper: marks the last section closed if it has a
header (closing a header-less section is a no-op). -/
def closeSectionSt (s : RState) : RState :=
  mapLastSection (fun sec => if sec.header.isSome then { sec with closed := true } else sec) s

/-- The `getCurrentId()` helper. -/
def getCurrentIdSt (s : RState) : Option String :=
  if (lastSection s).closed then none else (lastSection s).id

/-- The `startNewLine()` helper: a closed last section spawns a fresh
header-less continuation section (whose initial line is the new line);
otherwise a fresh empty line is appended to the last section. -/
def startNewLineSt (s : RState) : RState :=
  if (lastSection s).closed then startNewSectionSt none s
  else mapLastSection (fun sec => { sec with lines := sec.lines ++ [⟨0, []⟩] }) s

/-- Append a token to a line, recording the given indent if the line was
empty (`getIndentedLine`'s indent assignment plus the `push`). -/
def lineAddTok (indentCount : Nat) (tk : Tok) (line : Line) : Line :=
  { indent := if line.tokens.isEmpty then indentCount else line.indent,
    tokens := line.tokens ++ [tk] }

/-- Fused `getIndentedLine().push(tk)`: if the last section is closed a fresh
continuation section is started first; the last line of the last section
records the current indent when it receives its first token, then the token
is appended. -/
def pushOnIndentedLine (tk : Tok) (s : RState) : RState :=
  let s := if (lastSection s).closed then startNewSectionSt none s else s
  mapLastSection (fun sec => { sec with lines := updateLast (lineAddTok s.indentCount tk) sec.lines }) s

/-- Body of the `pushToken` switch, after the `triggerPushFn` call.  Each
punctuation case goes through `pushSyntaxToken`, whose own `triggerPushFn()`
call is a no-op there because `pushToken` has just consumed any armed hook. -/
def pushTokenCoreSt : TokenType → RState → RState
  | .L_CURLY => pushOnIndentedLine (.syn "\x7b")
  | .R_CURLY => pushOnIndentedLine (.syn "\x7d")
  | .L_BRACKET => pushOnIndentedLine (.syn "[")
  | .R_BRACKET => pushOnIndentedLine (.syn "]")
  | .COMMA => pushOnIndentedLine (.syn ",")
  | .COLON => pushOnIndentedLine (.syn ":")
  | .PIPE => pushOnIndentedLine (.syn "|")
  | .SPACE => pushOnIndentedLine .space
  | .NL => startNewLineSt

/-- Set the innermost `isEmpty` frame to false (the hook's `isEmpty = false`
assignment; the armed hook always belongs to the innermost frame). -/
def clearTopFrame : List Bool → List Bool
  | [] => []
  | _ :: fs => false :: fs

/-- Effective fold style computed by the hook: the explicit `foldStyle` when
declared, otherwise block unless the first emission is an opening bracket or
brace. -/
def effectiveFoldStyleOf (foldStyle : Option Bool) (tok : Option TokenType) : Bool :=
  match foldStyle with
  | some b => b
  | none => !(tok == some .L_BRACKET || tok == some .L_CURLY)

/-- The `triggerPushFn(tok)` helper: consumes the armed hook, if any, and runs
its body: mark the container non-empty, compute the effective fold style, then
either start a block (newline via `pushToken(NL)`, indent increase, block
context) or stay inline. -/
def triggerPushFnSt (tok : Option TokenType) (s : RState) : RState :=
  match s.hook with
  | none => s
  | some foldStyle =>
    let s1 : RState := { s with hook := none, frames := clearTopFrame s.frames }
    if effectiveFoldStyleOf foldStyle tok then
      let s2 := pushTokenCoreSt .NL s1
      { s2 with indentCount := s2.indentCount + 1,
                isInlineContext := false :: s2.isInlineContext }
    else
      { s1 with isInlineContext := true :: s1.isInlineContext }

/-- The `pushToken(token)` helper: trigger the hook with the token, then the
switch body. -/
def pushTokenSt (t : TokenType) (s : RState) : RState :=
  pushTokenCoreSt t (triggerPushFnSt (some t) s)

/-- The `pushIdentifier(name)` helper: trigger the hook, read the current id
(after the trigger, as in the source), then push the identifier link. -/
def pushIdentifierSt (name : String) (s : RState) : RState :=
  let s := triggerPushFnSt none s
  pushOnIndentedLine (.ident name (getCurrentIdSt s)) s

/-- Common body of `pushNull` / `pushNumber` / `pushBoolean` / `pushString`,
which differ only in the style they attach: trigger the hook, then push the
literal value. -/
def pushLitSt (v : JsonValue) (s : RState) : RState :=
  pushOnIndentedLine (.lit v) (triggerPushFnSt none s)

/-- Option-valued prefix removal on character lists: `some rest` when `pat`
is a prefix of `s`. -/
def dropPref? : List Char → List Char → Option (List Char)
  | [], s => some s
  | _ :: _, [] => none
  | p :: ps, c :: cs => if p == c then dropPref? ps cs else none

/-- Removal of the first (leftmost) occurrence of `pat` from `s`; the list is
returned unchanged when `pat` does not occur. -/
def removeFirstOcc (pat : List Char) : List Char → List Char
  | [] => []
  | c :: cs =>
    match dropPref? pat (c :: cs) with
    | some rest => rest
    | none => c :: removeFirstOcc pat cs

/-- Strip of the first occurrence of `pat` from `r`: the JS host method
`r.replace(pat, '')` with a string pattern, which replaces only the first
occurrence.  (Implemented on the character list so concrete runs reduce in
the kernel.) -/
def replaceFirst (r pat : String) : String :=
  String.mk (removeFirstOcc pat.data r.data)

/-- The `pushReference(node)` helper: trigger the hook, derive the property
name from the `$ref` value, read `data.properties[propertyName]` (a TypeError
when the root has no `properties`; the looked-up value is otherwise unused),
and push the `See <name>` pointer whose link target anchor is the name.  It
never recurses into the target. -/
def pushReferenceSt (data : SchemaNode) (r : String) (s : RState) :
    Except RenderError RState :=
  let s := triggerPushFnSt none s
  let propertyName := replaceFirst r "#/properties/"
  match data.properties with
  | none => .error .hostTypeError
  | some _ => .ok (pushOnIndentedLine (.see propertyName) s)

/-- The `pushTyped(value)` helper: dispatch on the value's JS type over the
`pushByType` table, throwing `Unsupported type` at the current path for
non-scalar values. -/
def pushTypedSt (v : JsonValue) (s : RState) : Except RenderError RState :=
  let valueType := valueTypeOf v
  if valueType == "null" || valueType == "number" ||
     valueType == "boolean" || valueType == "string" then
    .ok (pushLitSt v s)
  else
    .error (.unsupportedType valueType (String.intercalate "." s.idSegments))

/-- JS whitespace stripped by `String.prototype.trim` (the characters that
occur in this code path). -/
def isJsWhitespace (c : Char) : Bool :=
  c == ' ' || c == '\n' || c == '\t' || c == '\r'

/-- Model of the JS host method `String.prototype.trim`: strip leading and
trailing whitespace.  (Implemented on the character list so concrete runs
reduce in the kernel.) -/
def jsTrim (s : String) : String :=
  String.mk (((s.data.dropWhile isJsWhitespace).reverse.dropWhile isJsWhitespace).reverse)

/-- The `getDescription(node)` helper: title and description joined by a blank
line, trimmed. -/
def getDescription (node : SchemaNode) : String :=
  jsTrim ((node.title.getD "") ++ "\n\n" ++ (node.description.getD ""))

/-- The `getExample(node)` helper as a pure function of the node and the
current path: `examples[0]` when defined, else `default`, else the
`Missing example` failure naming the dot-joined path. -/
def getExampleF (node : SchemaNode) (idSegments : List String) :
    Except RenderError JsonValue :=
  match node.examples.bind List.head? with
  | some v => .ok v
  | none =>
    match node.default with
    | some d => .ok d
    | none => .error (.missingExample (String.intercalate "." idSegments))

/-- The `forwardExample(node, example)` helper: an array node receives the
value as `exampleItems`, any other node as `examples: [value]`.  The argument
is optional because the source forwards the possibly-undefined
`examples[0][propertyName]`; an `undefined` list entry is modelled by the
empty list, which is indistinguishable from `[undefined]` under the reads the
code performs (`[0]` access only). -/
def forwardExample (node : SchemaNode) (ex : Option JsonValue) : SchemaNode :=
  if node.type == .single "array" then
    { node with exampleItems := ex }
  else
    { node with examples := some (match ex with | some v => [v] | none => []) }

/-- Type names with a `pushByType` entry (`hasOwnProperty` checks). -/
def supportedScalar (t : String) : Bool :=
  t == "null" || t == "number" || t == "boolean" || t == "string"

/-- Case labels of the scalar arm of the `process` switch: the four
`pushByType` names plus the literal `mixed`, the label an array-valued `type`
is folded to — which a literal `type: "mixed"` string therefore also hits. -/
def scalarSwitchCase (t : String) : Bool :=
  supportedScalar t || t == "mixed"

/-- Tail of the enum alternation: `SPACE | SPACE member` for every member
after the first. -/
def pushEnumRest : List JsonValue → RState → Except RenderError RState
  | [], s => .ok s
  | v :: vs, s => do
    let s := pushTokenSt .SPACE s
    let s := pushTokenSt .PIPE s
    let s := pushTokenSt .SPACE s
    let s ← pushTypedSt v s
    pushEnumRest vs s

/-- Opening phase of `indentedBlock(lTok, rTok, foldStyle, fn)`: push the
opening token (which may fire the enclosing container's hook), push an
`isEmpty` frame and arm the hook with this container's fold style. -/
def indentedBlockEnter (lTok : TokenType) (foldStyle : Option Bool) (s : RState) : RState :=
  let s := pushTokenSt lTok s
  { s with frames := true :: s.frames, hook := some foldStyle }

/-- Closing phase of `indentedBlock`: disarm the hook, and if the body emitted
anything (the hook fired, clearing the frame) pop the inline-context entry the
hook had pushed, decrementing the indent for a block container; drop the frame
and push the closing token. -/
def indentedBlockExit (rTok : TokenType) (s : RState) : RState :=
  let s : RState := { s with hook := none }
  let isEmpty := s.frames.headD true
  let s :=
    if !isEmpty then
      let hasIndent := !(s.isInlineContext.headD false)
      let s : RState := { s with isInlineContext := s.isInlineContext.tail }
      if hasIndent then { s with indentCount := s.indentCount - 1 } else s
    else s
  let s : RState := { s with frames := s.frames.tail }
  pushTokenSt rTok s

/-- The `indentedBlock(lTok, rTok, foldStyle, fn)` combinator: the opening
phase, the body, the closing phase.  `process` uses the two phases directly
around its recursive loops; the composition is definitionally this
combinator. -/
def indentedBlock (lTok rTok : TokenType) (foldStyle : Option Bool)
    (body : RState → Except RenderError RState) (s : RState) :
    Except RenderError RState := do
  let s ← body (indentedBlockEnter lTok foldStyle s)
  .ok (indentedBlockExit rTok s)

/-- List of items an array node iterates over:
`node.exampleItems ?? node._exampleItems ?? node.default ?? []`, with a
non-array value yielding zero iterations (its `.length` is `undefined`). -/
def arrayExampleItems (node : SchemaNode) : List JsonValue :=
  match node.exampleItems <|> node.uExampleItems <|> node.default with
  | some (.arr xs) => xs
  | _ => []

/-- Item schema for index `t`: `prefixItems[t]` when in bounds, else `items`.
`none` models an `undefined` item node (no `items` and `prefixItems` not
covering the index), on which `forwardExample` throws a TypeError reading
`node.type`. -/
def itemSchemaAt (node : SchemaNode) (t : Nat) : Option SchemaNode :=
  match node.prefixItems with
  | some ps => if h : t < ps.length then some (ps.get ⟨t, h⟩) else node.items
  | none => node.items

/-- Default arm of the `process` switch: a `$ref` node becomes a reference,
anything else is an unsupported type at the current path. -/
def processDefault (data : SchemaNode) (node : SchemaNode) (tyName : String)
    (s : RState) : Except RenderError RState :=
  match node.ref with
  | some r => pushReferenceSt data r s
  | none => .error (.unsupportedType tyName (String.intercalate "." s.idSegments))

/-- Scalar / mixed arm of `process`: without `enum`, push the resolved
example; with `enum`, push the members as a pipe alternation (`enum[0]` of an
empty enum is `undefined`, so `pushTyped` throws `Unsupported type
undefined`). -/
def processScalar (node : SchemaNode) (s : RState) : Except RenderError RState :=
  match node.enum with
  | none => do
    let v ← getExampleF node s.idSegments
    pushTypedSt v s
  | some [] => .error (.unsupportedType "undefined" (String.intercalate "." s.idSegments))
  | some (v :: vs) => do
    let s ← pushTypedSt v s
    pushEnumRest vs s

mutual

/-- The `process(node, {skipIndent})` walker.  `rt` is the host regular
expression test (`key.match(new RegExp(pattern))`), `data` the root document
captured by `pushReference`.  The walk is a mutual structural recursion on a
fuel argument that every loop step decrements (so concrete runs reduce in the
kernel); the source recursion is bounded by the schema tree, so any fuel at
least the tree size times the widest node is enough, and theorems about
successful runs quantify over the fuel.  The array and object arms are
`indentedBlock` applications, written through its two phases so the recursive
loop is not hidden under a function argument. -/
def process (rt : String → String → Bool) (data : SchemaNode) :
    Nat → SchemaNode → Bool → RState → Except RenderError RState
  | 0, _, _, _ => .error .outOfFuel
  | Nat.succ f, node, skipIndent, s =>
    match node.type with
    | .multi ts =>
      if ts.all supportedScalar then processScalar node s
      else .error (.unsupportedType (String.intercalate ", " ts)
        (String.intercalate "." s.idSegments))
    | .single t =>
      if scalarSwitchCase t then processScalar node s
      else if t == "array" then do
        let exampleItems := arrayExampleItems node
        let s := indentedBlockEnter .L_BRACKET node.foldStyle s
        let s ← processArrayItems rt data f node exampleItems 0 exampleItems.length s
        .ok (indentedBlockExit .R_BRACKET s)
      else if t == "object" then
        if skipIndent then processInjectObject rt data f node s
        else do
          let s := indentedBlockEnter .L_CURLY node.foldStyle s
          let s ← processInjectObject rt data f node s
          .ok (indentedBlockExit .R_CURLY s)
      else processDefault data node t s
    | .missing => processDefault data node "undefined" s

/-- Property-node merge of the `properties` loop:
`node.examples ? forwardExample(propertyNode, node.examples[0][propertyName]) : \x7b\x7d`
spread over the property node.  A missing `examples` leaves the node as is; a
present but empty `examples` makes `node.examples[0][propertyName]` a read on
`undefined`, a TypeError, and a literal `null` first example likewise throws
reading `null[propertyName]` (other scalar examples index without throwing
and forward `undefined`). -/
def childNodeOf (node propertyNode : SchemaNode) (propertyName : String) :
    Except RenderError SchemaNode :=
  match node.examples with
  | none => pure propertyNode
  | some l =>
    match l.head? with
    | none => Except.error RenderError.hostTypeError
    | some .null => Except.error RenderError.hostTypeError
    | some e0 => pure (forwardExample propertyNode (jsIndex e0 propertyName))

/-- Loop of the array arm: process `forwardExample(itemSchema, item)` for each
example item (an `undefined` item schema aborts with the TypeError
`forwardExample` throws), separating items with `, ` in an inline context and
with `,` plus newline in a block context (where even the last item gets
one). -/
def processArrayItems (rt : String → String → Bool) (data : SchemaNode) :
    Nat → SchemaNode → List JsonValue → Nat → Nat → RState →
    Except RenderError RState
  | 0, _, _, _, _, _ => .error .outOfFuel
  | Nat.succ _, _, [], _, _, s => .ok s
  | Nat.succ f, node, ex :: rest, t, total, s =>
    match itemSchemaAt node t with
    | none => .error .hostTypeError
    | some itemNode => do
      let s ← process rt data f (forwardExample itemNode (some ex)) false s
      let s :=
        if s.isInlineContext.headD false then
          if t + 1 < total then pushTokenSt .SPACE (pushTokenSt .COMMA s) else s
        else pushTokenSt .NL (pushTokenSt .COMMA s)
      processArrayItems rt data f node rest (t + 1) total s

/-- The `injectObject` closure of the object arm: `exampleKeys` (or its
underscore fallback) routes through pattern matching, otherwise the declared
properties are walked (a missing `properties` object is a TypeError in
`Object.entries`). -/
def processInjectObject (rt : String → String → Bool) (data : SchemaNode) :
    Nat → SchemaNode → RState → Except RenderError RState
  | 0, _, _ => .error .outOfFuel
  | Nat.succ f, node, s =>
    match node.exampleKeys <|> node.uExampleKeys with
    | some keys =>
      match node.patternProperties with
      | none => .error (.unsupportedExampleKeys (String.intercalate "." s.idSegments))
      | some pats => processExampleKeys rt data f pats keys s
    | none =>
      match node.properties with
      | none => .error .hostTypeError
      | some entries => processProps rt data f node entries 0 entries.length s

/-- Loop of the `exampleKeys` branch: `identifier: `, the pattern-matched
schema, then always `,` plus newline. -/
def processExampleKeys (rt : String → String → Bool) (data : SchemaNode) :
    Nat → List (String × SchemaNode) → List String → RState →
    Except RenderError RState
  | 0, _, _, _ => .error .outOfFuel
  | Nat.succ _, _, [], s => .ok s
  | Nat.succ f, pats, key :: rest, s => do
    let s := pushIdentifierSt key s
    let s := pushTokenSt .COLON s
    let s := pushTokenSt .SPACE s
    let s ← processPattern rt data f pats key s
    let s := pushTokenSt .NL (pushTokenSt .COMMA s)
    processExampleKeys rt data f pats rest s

/-- The `processPattern(patterns, key)` helper: first pattern matching the key
(declaration order, host regex search) wins and its schema is processed; no
match pushes the literal `error` identifier instead of failing. -/
def processPattern (rt : String → String → Bool) (data : SchemaNode) :
    Nat → List (String × SchemaNode) → String → RState →
    Except RenderError RState
  | 0, _, _, _ => .error .outOfFuel
  | Nat.succ _, [], _, s => .ok (pushIdentifierSt "error" s)
  | Nat.succ f, (pat, spec) :: rest, key, s =>
    if rt pat key then process rt data f spec false s
    else processPattern rt data f rest key s

/-- Loop of the `properties` branch: skip a property absent from a truthy
driving example; push the path segment; open a documentation section when the
property describes itself; emit `identifier: `, process the property schema
merged with any forwarded example, emit separators per the fold context, pop
the path segment, and close the section. -/
def processProps (rt : String → String → Bool) (data : SchemaNode) :
    Nat → SchemaNode → List (String × SchemaNode) → Nat → Nat → RState →
    Except RenderError RState
  | 0, _, _, _, _, _ => .error .outOfFuel
  | Nat.succ _, _, [], _, _, s => .ok s
  | Nat.succ f, node, (propertyName, propertyNode) :: rest, t, total, s =>
    let skip :=
      match node.examples.bind List.head? with
      | some e0 => truthy e0 && (jsIndex e0 propertyName).isNone
      | none => false
    if skip then processProps rt data f node rest (t + 1) total s
    else do
      let s : RState := { s with idSegments := s.idSegments ++ [propertyName] }
      let description := getDescription propertyNode
      let s := if description != "" then startNewSectionSt (some description) s else s
      let s := pushIdentifierSt propertyName s
      let s := pushTokenSt .COLON s
      let s := pushTokenSt .SPACE s
      let childNode ← childNodeOf node propertyNode propertyName
      let s ← process rt data f childNode false s
      let s :=
        if s.isInlineContext.headD false then
          if t + 1 < total then pushTokenSt .SPACE (pushTokenSt .COMMA s) else s
        else pushTokenSt .NL (pushTokenSt .COMMA s)
      let s : RState := { s with idSegments := s.idSegments.dropLast }
      let s := if description != "" then closeSectionSt s else s
      processProps rt data f node rest (t + 1) total s

end

/-- One render pass of `JsonDoc`: run `process` on the root with the given
`skipFirstIndent` and return the accumulated sections. -/
def renderJsonDoc (rt : String → String → Bool) (fuel : Nat)
    (skipFirstIndent : Bool) (data : SchemaNode) :
    Except RenderError (List Sect) :=
  (process rt data fuel data skipFirstIndent initState).map (·.sections)

/-- Render with the component's default configuration
(`skipFirstIndent = true`). -/
def renderJsonDocDefault (rt : String → String → Bool) (fuel : Nat)
    (data : SchemaNode) : Except RenderError (List Sect) :=
  renderJsonDoc rt fuel true data

/-- Minimum indent among a section's non-empty lines, as computed by the
render step (`Math.min` over the filtered indents; the empty case, JS
`Infinity`, defaults to 0 and is irrelevant to lines that exist). -/
def sectionIndent (lines : List Line) : Nat :=
  (((lines.filter (fun line => !line.tokens.isEmpty)).map (·.indent)).min?).getD 0

/-- Per-section indent normalization performed by the render step: every
line's indent is shifted down by the section's minimum non-empty indent. -/
def normalizeSection (sec : Sect) : Sect :=
  { sec with lines := sec.lines.map (fun line => { line with indent := line.indent - sectionIndent sec.lines }) }

/-- Non-null section ids of a render, in section order. -/
def sectionIds (secs : List Sect) : List String :=
  secs.filterMap (·.id)

/-- All tokens of a section, line by line. -/
def sectTokens (sec : Sect) : List Tok :=
  (sec.lines.map (·.tokens)).flatten

/-- All tokens of a render, section by section, in emission order. -/
def allTokens (secs : List Sect) : List Tok :=
  (secs.map sectTokens).flatten

/-- Names of the identifier tokens of a token list, in order. -/
def identNames (toks : List Tok) : List String :=
  toks.filterMap (fun tk => match tk with | .ident n _ => some n | _ => none)

/-- Names (equally: link target anchors) of the reference pointers of a token
list, in order. -/
def seeNames (toks : List Tok) : List String :=
  toks.filterMap (fun tk => match tk with | .see n => some n | _ => none)

/-- Growth order on lines: the tokens only grow at the end, and the indent of
a line is frozen once the line has a token. -/
def LineLe (a b : Line) : Prop :=
  a.tokens <+: b.tokens ∧ (a.tokens ≠ [] → a.indent = b.indent)

/-- Pointwise-prefix growth order on line lists. -/
inductive LinesLe : List Line → List Line → Prop
  | nil (l : List Line) : LinesLe [] l
  | cons {a b : Line} {as bs : List Line} :
      LineLe a b → LinesLe as bs → LinesLe (a :: as) (b :: bs)

/-- Growth order on sections: `id` and `header` are fixed at creation, a
closed section never changes again, and lines only grow. -/
def SecLe (a b : Sect) : Prop :=
  a.id = b.id ∧ a.header = b.header ∧ (a.closed = true → b = a) ∧ LinesLe a.lines b.lines

/-- Pointwise-prefix growth order on section buffers. -/
inductive SectsLe : List Sect → List Sect → Prop
  | nil (l : List Sect) : SectsLe [] l
  | cons {a b : Sect} {as bs : List Sect} :
      SecLe a b → SectsLe as bs → SectsLe (a :: as) (b :: bs)

/-- Invariant relating ids and headers: a section carries a non-null id
exactly when it carries a header. -/
def SecInv (secs : List Sect) : Prop :=
  ∀ sec ∈ secs, sec.id.isSome = sec.header.isSome

/-- Effect bound of one walker step on the layout buffer: the buffer grows in
the `SectsLe` order and the id/header invariant is preserved. -/
def Steps (s s' : RState) : Prop :=
  SectsLe s.sections s'.sections ∧ (SecInv s.sections → SecInv s'.sections)

/-- Shape invariant of a reachable state: the section list is non-empty and
every section has at least one line (true initially and preserved by every
primitive). -/
def GoodShape (s : RState) : Prop :=
  s.sections ≠ [] ∧ ∀ sec ∈ s.sections, sec.lines ≠ []

/-- Host regex test of the scenarios whose document declares no
`patternProperties`: the test is never consulted there, so the constant
serves. -/
def rtAll : String → String → Bool := fun _ _ => true

/-- Substring containment on character lists: `pat` occurs contiguously in
the second argument. -/
def hasSubstr : List Char → List Char → Bool
  | pat, [] => pat.isEmpty
  | pat, c :: cs => (dropPref? pat (c :: cs)).isSome || hasSubstr pat cs

/-- Host regex test for literal patterns: a pattern without
regular-expression metacharacters matches a key exactly when it occurs in the
key as a substring — `key.match(new RegExp(pat))` is non-null iff `key`
contains `pat`. -/
def rtSub : String → String → Bool :=
  fun pat key => hasSubstr pat.data key.data

/-- Host regex test defined on the single pattern `^foo` of the pattern
fallback scenario: the key must start with `foo`. -/
def rt7 : String → String → Bool :=
  fun pat key => pat == "^foo" && (dropPref? "foo".data key.data).isSome

/-- Error projection of a render result (the section list has no decidable
equality, the error does). -/
def renderErr? (r : Except RenderError (List Sect)) : Option RenderError :=
  match r with
  | .error e => some e
  | .ok _ => none

/-- Node whose `type` routes `process` into the scalar/mixed arm. -/
def scalarTyped (node : SchemaNode) : Prop :=
  (∃ t, node.type = .single t ∧ supportedScalar t = true) ∨
  (∃ ts, node.type = .multi ts ∧ ts.all supportedScalar = true)

/-- Scalar node fixture: `{type: "number", examples: [3]}`. -/
def scalarDoc : SchemaNode :=
  { emptyNode with type := .single "number", examples := some [.num 3] }

/-- Documented root property fixture (the reference target). -/
def c4target : SchemaNode :=
  { emptyNode with type := .single "boolean", examples := some [.bool true], description := some "The widget." }

/-- Reference node fixture: `{$ref: "#/properties/widget"}`. -/
def c4ref : SchemaNode := { emptyNode with ref := some "#/properties/widget" }

/-- Root document fixture for the reference scenario: a documented `widget`
property followed by a property whose node points back at it. -/
def c4doc : SchemaNode :=
  { emptyNode with type := .single "object", properties := some [("widget", c4target), ("link", c4ref)] }

/-- Documented property fixture of the duplicate-id scenario. -/
def pNode : SchemaNode :=
  { emptyNode with type := .single "number", examples := some [.num 1], description := some "d" }

/-- Pattern schema of the duplicate-id scenario: an object with one documented
property `p`. -/
def specObj : SchemaNode :=
  { emptyNode with type := .single "object", properties := some [("p", pNode)] }

/-- Duplicate-id document: the example keys `ax` and `bx` both contain the
literal pattern `x`, so both match the same pattern schema, and each visit
opens a section for `p` without the example key on the path. -/
def c1doc : SchemaNode :=
  { emptyNode with type := .single "object", exampleKeys := some ["ax", "bx"], patternProperties := some [("x", specObj)] }

/-- State fixture whose last section is closed. -/
def closedState : RState :=
  { sections := [⟨some "x", some "d", true, [⟨0, []⟩]⟩], idSegments := [],
    indentCount := 0, isInlineContext := [false], hook := none, frames := [] }

/-- Empty-enum scalar fixture: `{type: "number", enum: [], examples: [5]}`. -/
def c6node : SchemaNode :=
  { emptyNode with type := .single "number", enum := some [], examples := some [.num 5] }

/-- Enumerated scalar fixture: `{type: "string", enum: ["a", "b"]}`. -/
def c6good : SchemaNode :=
  { emptyNode with type := .single "string", enum := some [.str "a", .str "b"] }

/-- Pattern schema fixture: `{type: "number", examples: [7]}`. -/
def c7spec : SchemaNode :=
  { emptyNode with type := .single "number", examples := some [.num 7] }

/-- Pattern fallback document: keys `xyz` (no pattern matches) and `foobar`
(matches `^foo`). -/
def c7doc : SchemaNode :=
  { emptyNode with type := .single "object", exampleKeys := some ["xyz", "foobar"], patternProperties := some [("^foo", c7spec)] }

/-- Scalar property fixture: `{type: "number", examples: [3]}`. -/
def c8a : SchemaNode :=
  { emptyNode with type := .single "number", examples := some [.num 3] }

/-- Omission-rule document: properties `a` and `b`, driving example `{a: 1}`. -/
def c8doc : SchemaNode :=
  { emptyNode with type := .single "object", properties := some [("a", c8a), ("b", c8a)], examples := some [.obj [("a", .num 1)]] }

/-- Scalar leaf property: single supported scalar type, no enum, a scalar
first example. -/
def scalarLeafProp (n : SchemaNode) : Prop :=
  (∃ t, n.type = .single t ∧ supportedScalar t = true) ∧ n.enum = none ∧
  (∃ v vs, n.examples = some (v :: vs) ∧ supportedScalar (valueTypeOf v) = true)

/-- Flat-layout invariant for the skip-first-indent scenario: a well-shaped
state at indent depth 0, no armed hook, all line indents 0, and no curly
brace tokens emitted. -/
def FlatState (s : RState) : Prop :=
  GoodShape s ∧ s.indentCount = 0 ∧ s.hook = none ∧
  (∀ sec ∈ s.sections, ∀ line ∈ sec.lines, line.indent = 0) ∧
  (∀ tk ∈ allTokens s.sections, tk ≠ .syn "\x7b" ∧ tk ≠ .syn "\x7d")

/-- Object root fixture with one scalar property. -/
def c10root : SchemaNode :=
  { emptyNode with type := .single "object", properties := some [("x", c8a)] }

set_option maxRecDepth 1000000

/-! ## Preservation framework

The walker only ever appends sections, appends lines to the last section,
appends tokens to the last line of the last section, and sets the `closed`
flag of the last section.  `SectsLe` is the resulting prefix-pointwise order
on section buffers: existing sections keep their `id` and `header`, a closed
section is frozen whole, and the lines of an open section only grow.  Every
primitive and the whole walk are monotone for it. -/

theorem lineLe_refl (a : Line) : LineLe a a :=
  ⟨List.prefix_refl _, fun _ => rfl⟩

theorem lineLe_trans {a b c : Line} (h1 : LineLe a b) (h2 : LineLe b c) : LineLe a c := by
  refine ⟨h1.1.trans h2.1, fun hne => ?_⟩
  have hb : b.tokens ≠ [] := by
    intro hb
    exact hne (List.prefix_nil.mp (hb ▸ h1.1))
  exact (h1.2 hne).trans (h2.2 hb)

theorem linesLe_refl (l : List Line) : LinesLe l l := by
  induction l with
  | nil => exact .nil _
  | cons a as ih => exact .cons (lineLe_refl a) ih

theorem linesLe_trans {l1 l2 l3 : List Line} (h1 : LinesLe l1 l2) (h2 : LinesLe l2 l3) :
    LinesLe l1 l3 := by
  induction h1 generalizing l3 with
  | nil => exact .nil _
  | cons hab _ ih =>
    cases h2 with
    | cons hbc hrest => exact .cons (lineLe_trans hab hbc) (ih hrest)

theorem secLe_refl (a : Sect) : SecLe a a :=
  ⟨rfl, rfl, fun _ => rfl, linesLe_refl _⟩

theorem secLe_trans {a b c : Sect} (h1 : SecLe a b) (h2 : SecLe b c) : SecLe a c := by
  obtain ⟨hid1, hh1, hc1, hl1⟩ := h1
  obtain ⟨hid2, hh2, hc2, hl2⟩ := h2
  refine ⟨hid1.trans hid2, hh1.trans hh2, fun hcl => ?_, linesLe_trans hl1 hl2⟩
  have hba := hc1 hcl
  have : b.closed = true := by rw [hba, hcl]
  rw [hc2 this, hba]

theorem sectsLe_refl (l : List Sect) : SectsLe l l := by
  induction l with
  | nil => exact .nil _
  | cons a as ih => exact .cons (secLe_refl a) ih

theorem sectsLe_trans {l1 l2 l3 : List Sect} (h1 : SectsLe l1 l2) (h2 : SectsLe l2 l3) :
    SectsLe l1 l3 := by
  induction h1 generalizing l3 with
  | nil => exact .nil _
  | cons hab _ ih =>
    cases h2 with
    | cons hbc hrest => exact .cons (secLe_trans hab hbc) (ih hrest)

theorem sectsLe_append_right (l m : List Sect) : SectsLe l (l ++ m) := by
  induction l with
  | nil => exact .nil _
  | cons a as ih => exact .cons (secLe_refl a) ih

/-- The target of `updateLast` grows pointwise when `f` grows the actual last
element. -/
theorem sectsLe_updateLast {l : List Sect} {f : Sect → Sect}
    (h : ∀ x, l.getLast? = some x → SecLe x (f x)) : SectsLe l (updateLast f l) := by
  induction l with
  | nil => exact .nil _
  | cons a as ih =>
    cases as with
    | nil => exact .cons (h a rfl) (.nil _)
    | cons b bs =>
      refine .cons (secLe_refl a) (ih ?_)
      intro x hx
      exact h x (by simpa using hx)

theorem linesLe_updateLast {l : List Line} {f : Line → Line}
    (h : ∀ x, LineLe x (f x)) : LinesLe l (updateLast f l) := by
  induction l with
  | nil => exact .nil _
  | cons a as ih =>
    cases as with
    | nil => exact .cons (h a) (.nil _)
    | cons b bs => exact .cons (lineLe_refl a) ih

theorem linesLe_append_right (l m : List Line) : LinesLe l (l ++ m) := by
  induction l with
  | nil => exact .nil _
  | cons a as ih => exact .cons (lineLe_refl a) ih

/-- Membership in `updateLast f l` comes from `l`, directly or through `f`. -/
theorem mem_updateLast {l : List α} {f : α → α} {y : α}
    (h : y ∈ updateLast f l) : y ∈ l ∨ ∃ x, x ∈ l ∧ y = f x := by
  induction l with
  | nil => simp [updateLast] at h
  | cons a as ih =>
    cases as with
    | nil =>
      simp only [updateLast, List.mem_singleton] at h
      exact .inr ⟨a, by simp, h⟩
    | cons b bs =>
      simp only [updateLast, List.mem_cons] at h
      rcases h with h | h
      · exact .inl (by simp [h])
      · rcases ih h with h' | ⟨x, hx, hfx⟩
        · exact .inl (List.mem_cons_of_mem _ h')
        · exact .inr ⟨x, List.mem_cons_of_mem _ hx, hfx⟩

theorem steps_refl (s : RState) : Steps s s :=
  ⟨sectsLe_refl _, id⟩

theorem steps_trans {s1 s2 s3 : RState} (h1 : Steps s1 s2) (h2 : Steps s2 s3) :
    Steps s1 s3 :=
  ⟨sectsLe_trans h1.1 h2.1, fun hinv => h2.2 (h1.2 hinv)⟩

theorem steps_of_sections_eq {s s' : RState} (h : s'.sections = s.sections) :
    Steps s s' := by
  constructor
  · rw [h]; exact sectsLe_refl _
  · rw [h]; exact id

theorem secInv_append {l m : List Sect} (hl : SecInv l) (hm : SecInv m) :
    SecInv (l ++ m) := by
  intro sec hsec
  rcases List.mem_append.mp hsec with h | h
  · exact hl sec h
  · exact hm sec h

theorem steps_startNewSectionSt (header : Option String) (s : RState) :
    Steps s (startNewSectionSt header s) := by
  constructor
  · exact sectsLe_append_right _ _
  · intro hinv
    refine secInv_append hinv ?_
    intro sec hsec
    simp only [List.mem_singleton] at hsec
    subst hsec
    cases header <;> simp

theorem steps_closeSectionSt (s : RState) : Steps s (closeSectionSt s) := by
  constructor
  · refine sectsLe_updateLast ?_
    intro x _
    by_cases hx : x.header.isSome
    · rw [if_pos hx]
      refine ⟨rfl, rfl, fun hcl => ?_, linesLe_refl _⟩
      cases x
      simp_all
    · rw [if_neg hx]
      exact secLe_refl x
  · intro hinv sec hsec
    rcases mem_updateLast hsec with h | ⟨x, hx, hfx⟩
    · exact hinv sec h
    · subst hfx
      by_cases hxh : x.header.isSome <;> simp [hxh, hinv x hx]

theorem steps_mapLast_open_lines {s : RState} {g : List Line → List Line}
    (hg : ∀ l, LinesLe l (g l))
    (hopen : (lastSection s).closed = false) :
    Steps s (mapLastSection (fun sec => { sec with lines := g sec.lines }) s) := by
  constructor
  · refine sectsLe_updateLast ?_
    intro x hx
    have hxop : x.closed = false := by
      have : lastSection s = x := by simp [lastSection, hx]
      rw [← this]; exact hopen
    exact ⟨rfl, rfl, fun hc => absurd hc (by simp [hxop]), hg x.lines⟩
  · intro hinv sec hsec
    rcases mem_updateLast hsec with h | ⟨x, hx, hfx⟩
    · exact hinv sec h
    · subst hfx
      exact hinv x hx

theorem steps_startNewLineSt (s : RState) : Steps s (startNewLineSt s) := by
  unfold startNewLineSt
  by_cases hcl : (lastSection s).closed
  · simp only [hcl, if_pos]
    exact steps_startNewSectionSt none s
  · simp only [hcl, Bool.false_eq_true, if_neg, not_false_iff]
    exact steps_mapLast_open_lines (fun l => linesLe_append_right l _)
      (by simpa using hcl)

theorem steps_pushOnIndentedLine (tk : Tok) (s : RState) :
    Steps s (pushOnIndentedLine tk s) := by
  unfold pushOnIndentedLine
  by_cases hcl : (lastSection s).closed
  · simp only [hcl, if_pos]
    refine steps_trans (steps_startNewSectionSt none s) ?_
    refine steps_mapLast_open_lines ?_ ?_
    · intro l
      refine linesLe_updateLast ?_
      intro x
      exact ⟨List.prefix_append _ _, fun hne => by simp [lineAddTok, hne]⟩
    · simp [lastSection, startNewSectionSt]
  · simp only [hcl, Bool.false_eq_true, if_neg, not_false_iff]
    refine steps_mapLast_open_lines ?_ (by simpa using hcl)
    intro l
    refine linesLe_updateLast ?_
    intro x
    exact ⟨List.prefix_append _ _, fun hne => by simp [lineAddTok, hne]⟩

theorem steps_pushTokenCoreSt (t : TokenType) (s : RState) :
    Steps s (pushTokenCoreSt t s) := by
  cases t <;> first
    | exact steps_pushOnIndentedLine _ _
    | exact steps_startNewLineSt _

theorem steps_triggerPushFnSt (tok : Option TokenType) (s : RState) :
    Steps s (triggerPushFnSt tok s) := by
  unfold triggerPushFnSt
  split
  · exact steps_refl s
  · dsimp only
    split
    · have h := steps_pushTokenCoreSt .NL
        { s with hook := none, frames := clearTopFrame s.frames }
      exact ⟨h.1, h.2⟩
    · exact steps_of_sections_eq rfl

theorem steps_pushTokenSt (t : TokenType) (s : RState) :
    Steps s (pushTokenSt t s) :=
  steps_trans (steps_triggerPushFnSt (some t) s) (steps_pushTokenCoreSt t _)

theorem steps_pushIdentifierSt (name : String) (s : RState) :
    Steps s (pushIdentifierSt name s) :=
  steps_trans (steps_triggerPushFnSt none s) (steps_pushOnIndentedLine _ _)

theorem steps_pushLitSt (v : JsonValue) (s : RState) :
    Steps s (pushLitSt v s) :=
  steps_trans (steps_triggerPushFnSt none s) (steps_pushOnIndentedLine _ _)

theorem steps_indentedBlockEnter (lTok : TokenType) (fs : Option Bool) (s : RState) :
    Steps s (indentedBlockEnter lTok fs s) :=
  steps_trans (steps_pushTokenSt lTok s) (steps_of_sections_eq rfl)

theorem steps_to_pushTokenSt (t : TokenType) {s s' : RState}
    (h : s'.sections = s.sections) : Steps s (pushTokenSt t s') := by
  have hs := steps_pushTokenSt t s'
  exact ⟨h ▸ hs.1, h ▸ hs.2⟩

theorem steps_to_closeSectionSt {s s' : RState}
    (h : s'.sections = s.sections) : Steps s (closeSectionSt s') := by
  have hs := steps_closeSectionSt s'
  exact ⟨h ▸ hs.1, h ▸ hs.2⟩

theorem steps_indentedBlockExit (rTok : TokenType) (s : RState) :
    Steps s (indentedBlockExit rTok s) := by
  unfold indentedBlockExit
  dsimp only
  split
  · split
    · exact steps_to_pushTokenSt _ rfl
    · exact steps_to_pushTokenSt _ rfl
  · exact steps_to_pushTokenSt _ rfl

theorem steps_pushReferenceSt {data : SchemaNode} {r : String} {s s' : RState}
    (h : pushReferenceSt data r s = .ok s') : Steps s s' := by
  unfold pushReferenceSt at h
  cases hd : data.properties with
  | none => rw [hd] at h; exact absurd h (by simp)
  | some props =>
    rw [hd] at h
    simp only [Except.ok.injEq] at h
    subst h
    exact steps_trans (steps_triggerPushFnSt none s) (steps_pushOnIndentedLine _ _)

theorem steps_pushTypedSt {v : JsonValue} {s s' : RState}
    (h : pushTypedSt v s = .ok s') : Steps s s' := by
  unfold pushTypedSt at h
  dsimp only at h
  split at h
  · simp only [Except.ok.injEq] at h
    subst h
    exact steps_pushLitSt v s
  · exact absurd h (by simp)

theorem steps_pushEnumRest {vs : List JsonValue} {s s' : RState}
    (h : pushEnumRest vs s = .ok s') : Steps s s' := by
  induction vs generalizing s with
  | nil =>
    simp only [pushEnumRest, Except.ok.injEq] at h
    subst h
    exact steps_refl s
  | cons v rest ih =>
    simp only [pushEnumRest, bind, Except.bind] at h
    cases hp : pushTypedSt v (pushTokenSt .SPACE (pushTokenSt .PIPE (pushTokenSt .SPACE s))) with
    | error e => rw [hp] at h; exact absurd h (by simp)
    | ok s1 =>
      rw [hp] at h
      refine steps_trans (steps_pushTokenSt .SPACE s) ?_
      refine steps_trans (steps_pushTokenSt .PIPE _) ?_
      refine steps_trans (steps_pushTokenSt .SPACE _) ?_
      exact steps_trans (steps_pushTypedSt hp) (ih h)

theorem steps_processScalar {node : SchemaNode} {s s' : RState}
    (h : processScalar node s = .ok s') : Steps s s' := by
  unfold processScalar at h
  cases he : node.enum with
  | none =>
    rw [he] at h
    simp only [bind, Except.bind] at h
    cases hg : getExampleF node s.idSegments with
    | error e => rw [hg] at h; exact absurd h (by simp)
    | ok v => rw [hg] at h; exact steps_pushTypedSt h
  | some l =>
    rw [he] at h
    cases l with
    | nil => exact absurd h (by simp)
    | cons v vs =>
      simp only [bind, Except.bind] at h
      cases hp : pushTypedSt v s with
      | error e => rw [hp] at h; exact absurd h (by simp)
      | ok s1 =>
        rw [hp] at h
        exact steps_trans (steps_pushTypedSt hp) (steps_pushEnumRest h)

theorem steps_processDefault {data node : SchemaNode} {tyName : String} {s s' : RState}
    (h : processDefault data node tyName s = .ok s') : Steps s s' := by
  unfold processDefault at h
  cases hr : node.ref with
  | none => rw [hr] at h; exact absurd h (by simp)
  | some r => rw [hr] at h; exact steps_pushReferenceSt h

/-- Separator emission after an array item or object property is a walker
step. -/
theorem steps_itemSep (s1 : RState) (t total : Nat) :
    Steps s1 (if s1.isInlineContext.headD false then
        (if t + 1 < total then pushTokenSt .SPACE (pushTokenSt .COMMA s1) else s1)
      else pushTokenSt .NL (pushTokenSt .COMMA s1)) := by
  split
  · split
    · exact steps_trans (steps_pushTokenSt .COMMA s1) (steps_pushTokenSt .SPACE _)
    · exact steps_refl s1
  · exact steps_trans (steps_pushTokenSt .COMMA s1) (steps_pushTokenSt .NL _)

/-- The whole walk is a sequence of walker steps: every successful run of each
`process` family function grows the buffer in the `SectsLe` order and
preserves the id/header invariant. -/
theorem steps_processAll (rt : String → String → Bool) (data : SchemaNode) :
    ∀ f : Nat,
      (∀ node si s s', process rt data f node si s = .ok s' → Steps s s') ∧
      (∀ node items t total s s',
        processArrayItems rt data f node items t total s = .ok s' → Steps s s') ∧
      (∀ node s s', processInjectObject rt data f node s = .ok s' → Steps s s') ∧
      (∀ pats keys s s', processExampleKeys rt data f pats keys s = .ok s' → Steps s s') ∧
      (∀ pats key s s', processPattern rt data f pats key s = .ok s' → Steps s s') ∧
      (∀ node entries t total s s',
        processProps rt data f node entries t total s = .ok s' → Steps s s') := by
  intro f
  induction f with
  | zero =>
    refine ⟨?_, ?_, ?_, ?_, ?_, ?_⟩ <;> intros <;>
      simp_all [process, processArrayItems, processInjectObject, processExampleKeys,
        processPattern, processProps]
  | succ f ih =>
    obtain ⟨ihP, ihA, ihI, ihK, ihT, ihR⟩ := ih
    refine ⟨?_, ?_, ?_, ?_, ?_, ?_⟩
    · -- process
      intro node si s s' h
      rw [process] at h
      split at h
      · -- multi
        split at h
        · exact steps_processScalar h
        · exact absurd h (by simp)
      · -- single t
        split at h
        · exact steps_processScalar h
        · split at h
          · -- array
            simp only [bind, Except.bind] at h
            cases ha : processArrayItems rt data f node (arrayExampleItems node) 0
                (arrayExampleItems node).length
                (indentedBlockEnter .L_BRACKET node.foldStyle s) with
            | error e => rw [ha] at h; exact absurd h (by simp)
            | ok s1 =>
              rw [ha] at h
              simp only [Except.ok.injEq] at h
              subst h
              refine steps_trans (steps_indentedBlockEnter .L_BRACKET node.foldStyle s) ?_
              exact steps_trans (ihA _ _ _ _ _ _ ha) (steps_indentedBlockExit .R_BRACKET s1)
          · split at h
            · -- object
              split at h
              · exact ihI _ _ _ h
              · simp only [bind, Except.bind] at h
                cases hi : processInjectObject rt data f node
                    (indentedBlockEnter .L_CURLY node.foldStyle s) with
                | error e => rw [hi] at h; exact absurd h (by simp)
                | ok s1 =>
                  rw [hi] at h
                  simp only [Except.ok.injEq] at h
                  subst h
                  refine steps_trans (steps_indentedBlockEnter .L_CURLY node.foldStyle s) ?_
                  exact steps_trans (ihI _ _ _ hi) (steps_indentedBlockExit .R_CURLY s1)
            · exact steps_processDefault h
      · -- missing
        exact steps_processDefault h
    · -- processArrayItems
      intro node items t total s s' h
      cases items with
      | nil =>
        rw [processArrayItems] at h
        simp only [Except.ok.injEq] at h
        subst h
        exact steps_refl s
      | cons ex rest =>
        rw [processArrayItems] at h
        cases hi : itemSchemaAt node t with
        | none => rw [hi] at h; exact absurd h (by simp)
        | some itemNode =>
          rw [hi] at h
          simp only [bind, Except.bind] at h
          cases hp : process rt data f (forwardExample itemNode (some ex)) false s with
          | error e => rw [hp] at h; exact absurd h (by simp)
          | ok s1 =>
            rw [hp] at h
            refine steps_trans (ihP _ _ _ _ hp) ?_
            exact steps_trans (steps_itemSep s1 t total) (ihA _ _ _ _ _ _ h)
    · -- processInjectObject
      intro node s s' h
      rw [processInjectObject] at h
      split at h
      · split at h
        · exact absurd h (by simp)
        · exact ihK _ _ _ _ h
      · split at h
        · exact absurd h (by simp)
        · exact ihR _ _ _ _ _ _ h
    · -- processExampleKeys
      intro pats keys s s' h
      cases keys with
      | nil =>
        rw [processExampleKeys] at h
        simp only [Except.ok.injEq] at h
        subst h
        exact steps_refl s
      | cons key rest =>
        rw [processExampleKeys] at h
        simp only [bind, Except.bind] at h
        cases hp : processPattern rt data f pats key
            (pushTokenSt .SPACE (pushTokenSt .COLON (pushIdentifierSt key s))) with
        | error e => rw [hp] at h; exact absurd h (by simp)
        | ok s1 =>
          rw [hp] at h
          refine steps_trans (steps_pushIdentifierSt key s) ?_
          refine steps_trans (steps_pushTokenSt .COLON _) ?_
          refine steps_trans (steps_pushTokenSt .SPACE _) ?_
          refine steps_trans (ihT _ _ _ _ hp) ?_
          refine steps_trans (steps_pushTokenSt .COMMA s1) ?_
          exact steps_trans (steps_pushTokenSt .NL _) (ihK _ _ _ _ h)
    · -- processPattern
      intro pats key s s' h
      cases pats with
      | nil =>
        rw [processPattern] at h
        simp only [Except.ok.injEq] at h
        subst h
        exact steps_pushIdentifierSt "error" s
      | cons pr rest =>
        rw [processPattern] at h
        split at h
        · exact ihP _ _ _ _ h
        · exact ihT _ _ _ _ h
    · -- processProps
      intro node entries t total s s' h
      cases entries with
      | nil =>
        rw [processProps] at h
        simp only [Except.ok.injEq] at h
        subst h
        exact steps_refl s
      | cons entry rest =>
        obtain ⟨propertyName, propertyNode⟩ := entry
        rw [processProps] at h
        split at h
        · exact ihR _ _ _ _ _ _ h
        · simp only [bind, Except.bind] at h
          set s0 : RState := { s with idSegments := s.idSegments ++ [propertyName] } with hs0
          set sA := if getDescription propertyNode != "" then
              startNewSectionSt (some (getDescription propertyNode)) s0 else s0 with hsA
          set sB := pushTokenSt .SPACE (pushTokenSt .COLON (pushIdentifierSt propertyName sA)) with hsB
          have hstepsA : Steps s0 sA := by
            rw [hsA]
            split
            · exact steps_startNewSectionSt _ s0
            · exact steps_refl s0
          have hsteps0 : Steps s sB := by
            refine steps_trans (steps_of_sections_eq (show s0.sections = s.sections from rfl)) ?_
            refine steps_trans hstepsA ?_
            exact steps_trans (steps_pushIdentifierSt propertyName sA)
              (steps_trans (steps_pushTokenSt .COLON _) (steps_pushTokenSt .SPACE _))
          cases hc : childNodeOf node propertyNode propertyName with
          | error e =>
            rw [hc] at h
            exact absurd h (by simp)
          | ok childNode =>
            rw [hc] at h
            simp only [bind, Except.bind] at h
            cases hp : process rt data f childNode false sB with
            | error e => rw [hp] at h; exact absurd h (by simp)
            | ok s1 =>
              rw [hp] at h
              refine steps_trans hsteps0 ?_
              refine steps_trans (ihP _ _ _ _ hp) ?_
              refine steps_trans ?_ (ihR _ _ _ _ _ _ h)
              refine steps_trans (steps_itemSep s1 t total) ?_
              by_cases hdesc : (getDescription propertyNode != "") = true
              · rw [if_pos hdesc]
                exact steps_to_closeSectionSt rfl
              · rw [if_neg hdesc]
                exact steps_of_sections_eq rfl
  

theorem sectsLe_length {l l' : List Sect} (h : SectsLe l l') : l.length ≤ l'.length := by
  induction h with
  | nil => simp
  | cons _ _ ih => simpa using Nat.succ_le_succ ih

theorem sectsLe_get {l l' : List Sect} (h : SectsLe l l') :
    ∀ i (hi : i < l.length) (hi' : i < l'.length), SecLe (l.get ⟨i, hi⟩) (l'.get ⟨i, hi'⟩) := by
  induction h with
  | nil => intro i hi; simp at hi
  | cons hab _ ih =>
    intro i hi hi'
    cases i with
    | zero => exact hab
    | succ j => exact ih j (Nat.lt_of_succ_lt_succ hi) (Nat.lt_of_succ_lt_succ hi')

theorem lineLe_tokens_subset {a b : Line} (h : LineLe a b) :
    ∀ tk ∈ a.tokens, tk ∈ b.tokens := fun tk htk => h.1.subset htk

theorem linesLe_tokens_subset {l l' : List Line} (h : LinesLe l l') :
    ∀ tk ∈ (l.map (·.tokens)).flatten, tk ∈ (l'.map (·.tokens)).flatten := by
  induction h with
  | nil => intro tk htk; simp at htk
  | cons hab _ ih =>
    intro tk htk
    simp only [List.map_cons, List.flatten_cons, List.mem_append] at htk ⊢
    rcases htk with htk | htk
    · exact .inl (lineLe_tokens_subset hab tk htk)
    · exact .inr (ih tk htk)

theorem secLe_tokens_subset {a b : Sect} (h : SecLe a b) :
    ∀ tk ∈ sectTokens a, tk ∈ sectTokens b :=
  linesLe_tokens_subset h.2.2.2

theorem sectsLe_tokens_subset {l l' : List Sect} (h : SectsLe l l') :
    ∀ tk ∈ allTokens l, tk ∈ allTokens l' := by
  induction h with
  | nil => intro tk htk; simp [allTokens] at htk
  | cons hab _ ih =>
    intro tk htk
    simp only [allTokens, List.map_cons, List.flatten_cons, List.mem_append] at htk ⊢
    rcases htk with htk | htk
    · exact .inl (secLe_tokens_subset hab tk htk)
    · exact .inr (ih tk htk)

theorem sectsLe_ids_subset {l l' : List Sect} (h : SectsLe l l') :
    ∀ a ∈ sectionIds l, a ∈ sectionIds l' := by
  induction h with
  | nil => intro a ha; simp [sectionIds] at ha
  | cons hab hrest ih =>
    rename_i sa sb sas sbs
    intro a ha
    simp only [sectionIds, List.filterMap_cons] at ha ⊢
    rw [← hab.1]
    cases hsa : sa.id with
    | none =>
      rw [hsa] at ha
      exact ih a ha
    | some v =>
      rw [hsa] at ha
      simp only [List.mem_cons] at ha ⊢
      rcases ha with ha | ha
      · exact .inl ha
      · exact .inr (ih a ha)

theorem goodShape_initState : GoodShape initState := by
  constructor
  · simp [initState]
  · intro sec hsec
    simp only [initState, List.mem_singleton] at hsec
    subst hsec
    simp

theorem goodShape_startNewSectionSt {s : RState} (h : GoodShape s) (header : Option String) :
    GoodShape (startNewSectionSt header s) := by
  refine ⟨by simp [startNewSectionSt], ?_⟩
  intro sec hsec
  simp only [startNewSectionSt, List.mem_append, List.mem_singleton] at hsec
  rcases hsec with hsec | hsec
  · exact h.2 sec hsec
  · subst hsec; simp

theorem goodShape_mapLastSection {s : RState} (h : GoodShape s) {f : Sect → Sect}
    (hf : ∀ sec, sec.lines ≠ [] → (f sec).lines ≠ []) :
    GoodShape (mapLastSection f s) := by
  refine ⟨?_, ?_⟩
  · have := h.1
    cases hs : s.sections with
    | nil => exact absurd hs this
    | cons a as => simp [mapLastSection, hs, updateLast]; cases as <;> simp [updateLast]
  · intro sec hsec
    simp only [mapLastSection] at hsec
    rcases mem_updateLast hsec with hm | ⟨x, hx, hfx⟩
    · exact h.2 sec hm
    · subst hfx
      exact hf x (h.2 x hx)

theorem updateLast_ne_nil {l : List α} (h : l ≠ []) (f : α → α) : updateLast f l ≠ [] := by
  cases l with
  | nil => exact absurd rfl h
  | cons a as => cases as <;> simp [updateLast]

theorem goodShape_closeSectionSt {s : RState} (h : GoodShape s) :
    GoodShape (closeSectionSt s) := by
  refine goodShape_mapLastSection h ?_
  intro sec hsec
  split <;> simpa

theorem goodShape_startNewLineSt {s : RState} (h : GoodShape s) :
    GoodShape (startNewLineSt s) := by
  unfold startNewLineSt
  split
  · exact goodShape_startNewSectionSt h none
  · refine goodShape_mapLastSection h ?_
    intro sec hsec
    simp

theorem goodShape_pushOnIndentedLine {s : RState} (h : GoodShape s) (tk : Tok) :
    GoodShape (pushOnIndentedLine tk s) := by
  unfold pushOnIndentedLine
  split
  · refine goodShape_mapLastSection (goodShape_startNewSectionSt h none) ?_
    intro sec hsec
    exact updateLast_ne_nil hsec _
  · refine goodShape_mapLastSection h ?_
    intro sec hsec
    exact updateLast_ne_nil hsec _

theorem goodShape_pushTokenCoreSt {s : RState} (h : GoodShape s) (t : TokenType) :
    GoodShape (pushTokenCoreSt t s) := by
  cases t <;> first
    | exact goodShape_pushOnIndentedLine h _
    | exact goodShape_startNewLineSt h

theorem goodShape_sections_eq {s s' : RState} (h : GoodShape s)
    (he : s'.sections = s.sections) : GoodShape s' := by
  refine ⟨?_, ?_⟩
  · rw [he]; exact h.1
  · rw [he]; exact h.2

theorem goodShape_triggerPushFnSt {s : RState} (h : GoodShape s) (tok : Option TokenType) :
    GoodShape (triggerPushFnSt tok s) := by
  unfold triggerPushFnSt
  split
  · exact h
  · dsimp only
    split
    · exact @goodShape_sections_eq
        (pushTokenCoreSt .NL { s with hook := none, frames := clearTopFrame s.frames }) _
        (goodShape_pushTokenCoreSt
          (@goodShape_sections_eq s
            { s with hook := none, frames := clearTopFrame s.frames } h rfl) .NL) rfl
    · exact @goodShape_sections_eq s _ h rfl

theorem goodShape_pushTokenSt {s : RState} (h : GoodShape s) (t : TokenType) :
    GoodShape (pushTokenSt t s) :=
  goodShape_pushTokenCoreSt (goodShape_triggerPushFnSt h (some t)) t

theorem goodShape_pushIdentifierSt {s : RState} (h : GoodShape s) (name : String) :
    GoodShape (pushIdentifierSt name s) :=
  goodShape_pushOnIndentedLine (goodShape_triggerPushFnSt h none) _

theorem goodShape_pushLitSt {s : RState} (h : GoodShape s) (v : JsonValue) :
    GoodShape (pushLitSt v s) :=
  goodShape_pushOnIndentedLine (goodShape_triggerPushFnSt h none) _

/-! ### Exact token-stream equations for the emission primitives -/

theorem flatten_tokens_updateLast (n : Nat) (tk : Tok) (l : List Line) (h : l ≠ []) :
    ((updateLast (lineAddTok n tk) l).map (·.tokens)).flatten
      = (l.map (·.tokens)).flatten ++ [tk] := by
  induction l with
  | nil => exact absurd rfl h
  | cons a as ih =>
    cases as with
    | nil => simp [updateLast, lineAddTok]
    | cons b bs =>
      simp only [updateLast, List.map_cons, List.flatten_cons, List.append_assoc]
      rw [ih (by simp)]
      simp

theorem allTokens_append (l m : List Sect) :
    allTokens (l ++ m) = allTokens l ++ allTokens m := by
  simp [allTokens]

theorem allTokens_updateLast {secs : List Sect} (h : secs ≠ []) {f : Sect → Sect} (tks : List Tok)
    (hf : ∀ sec, sec ∈ secs → sectTokens (f sec) = sectTokens sec ++ tks) :
    allTokens (updateLast f secs) = allTokens secs ++ tks := by
  induction secs with
  | nil => exact absurd rfl h
  | cons a as ih =>
    cases as with
    | nil =>
      simp only [updateLast, allTokens, List.map_cons, List.map_nil, List.flatten_cons,
        List.flatten_nil, List.append_nil]
      rw [hf a (by simp)]
    | cons b bs =>
      simp only [updateLast, allTokens, List.map_cons, List.flatten_cons, List.append_assoc]
      have := ih (by simp) (fun sec hsec => hf sec (List.mem_cons_of_mem _ hsec))
      simp only [allTokens] at this
      rw [this]
      simp [List.append_assoc]

theorem allTokens_startNewSectionSt (header : Option String) (s : RState) :
    allTokens (startNewSectionSt header s).sections = allTokens s.sections := by
  simp [startNewSectionSt, allTokens_append, allTokens, sectTokens]

theorem allTokens_startNewLineSt (s : RState) :
    allTokens (startNewLineSt s).sections = allTokens s.sections := by
  unfold startNewLineSt
  split
  · exact allTokens_startNewSectionSt none s
  · cases hs : s.sections with
    | nil => simp [mapLastSection, hs, updateLast]
    | cons a as =>
      rw [mapLastSection]
      dsimp only
      rw [hs]
      have hres := @allTokens_updateLast (a :: as) (by simp)
        (fun sec => { sec with lines := sec.lines ++ [⟨0, []⟩] }) ([] : List Tok)
        (by intro sec _; simp [sectTokens])
      simpa using hres

theorem allTokens_pushOnIndentedLine {s : RState} (h : GoodShape s) (tk : Tok) :
    allTokens (pushOnIndentedLine tk s).sections = allTokens s.sections ++ [tk] := by
  unfold pushOnIndentedLine
  split
  · rw [mapLastSection]
    dsimp only
    rw [show (startNewSectionSt none s).sections = s.sections ++
        [⟨none, none, false, [⟨0, []⟩]⟩] from rfl]
    rw [allTokens_updateLast (by simp) [tk] ?_]
    · rw [allTokens_append]
      simp [allTokens, sectTokens]
    · intro sec hsec
      have hne : sec.lines ≠ [] := by
        rcases List.mem_append.mp hsec with hm | hm
        · exact h.2 sec hm
        · simp only [List.mem_singleton] at hm
          subst hm
          simp
      simp only [sectTokens]
      exact flatten_tokens_updateLast _ _ _ hne
  · rw [mapLastSection]
    dsimp only
    refine allTokens_updateLast h.1 [tk] ?_
    intro sec hsec
    simp only [sectTokens]
    exact flatten_tokens_updateLast _ _ _ (h.2 sec hsec)

theorem allTokens_triggerPushFnSt (s : RState) (tok : Option TokenType) :
    allTokens (triggerPushFnSt tok s).sections = allTokens s.sections := by
  unfold triggerPushFnSt
  split
  · rfl
  · dsimp only
    split
    · exact allTokens_startNewLineSt _
    · rfl

theorem goodShape_and_allTokens_pushLitSt {s : RState} (h : GoodShape s) (v : JsonValue) :
    allTokens (pushLitSt v s).sections = allTokens s.sections ++ [Tok.lit v] := by
  unfold pushLitSt
  rw [allTokens_pushOnIndentedLine (goodShape_triggerPushFnSt h none),
    allTokens_triggerPushFnSt]

theorem allTokens_pushTokenSt {s : RState} (h : GoodShape s) (t : TokenType) (tk : Tok)
    (ht : pushTokenCoreSt t = pushOnIndentedLine tk) :
    allTokens (pushTokenSt t s).sections = allTokens s.sections ++ [tk] := by
  unfold pushTokenSt
  rw [ht, allTokens_pushOnIndentedLine (goodShape_triggerPushFnSt h (some t)),
    allTokens_triggerPushFnSt]

theorem startNewLineSt_idSegments (s : RState) :
    (startNewLineSt s).idSegments = s.idSegments := by
  unfold startNewLineSt startNewSectionSt mapLastSection
  split <;> rfl

theorem startNewLineSt_indentCount (s : RState) :
    (startNewLineSt s).indentCount = s.indentCount := by
  unfold startNewLineSt startNewSectionSt mapLastSection
  split <;> rfl

theorem startNewLineSt_isInlineContext (s : RState) :
    (startNewLineSt s).isInlineContext = s.isInlineContext := by
  unfold startNewLineSt startNewSectionSt mapLastSection
  split <;> rfl

theorem startNewLineSt_hook (s : RState) : (startNewLineSt s).hook = s.hook := by
  unfold startNewLineSt startNewSectionSt mapLastSection
  split <;> rfl

theorem startNewLineSt_frames (s : RState) : (startNewLineSt s).frames = s.frames := by
  unfold startNewLineSt startNewSectionSt mapLastSection
  split <;> rfl

/-- C2.  For every container entered via `indentedBlock`: entering arms the
one-shot hook with the container's declared fold style; an armed hook fires on
the next emission and disarms itself, and an unarmed hook makes the trigger a
no-op (so the decision fires at most once, on the first emission inside the
container).  The fired decision honours an explicit fold style — forced block
(`foldStyle = true`) starts a new line and increments the indent depth before
the first child token lands, forced inline does neither — and, absent an
explicit style, stays inline exactly when the first emission is an opening
bracket `[` or brace `{`, switching to block layout otherwise. -/
theorem claim2_fold_decision :
    (∀ (tok : Option TokenType) (s : RState), s.hook = none →
       triggerPushFnSt tok s = s) ∧
    (∀ (tok : Option TokenType) (s : RState) (fs : Option Bool), s.hook = some fs →
       (triggerPushFnSt tok s).hook = none) ∧
    (∀ (lTok : TokenType) (fs : Option Bool) (s : RState),
       (indentedBlockEnter lTok fs s).hook = some fs) ∧
    (∀ (tok : Option TokenType) (b : Bool), effectiveFoldStyleOf (some b) tok = b) ∧
    (∀ tok : Option TokenType, effectiveFoldStyleOf none tok = false ↔
       (tok = some .L_BRACKET ∨ tok = some .L_CURLY)) ∧
    (∀ (tok : Option TokenType) (s : RState) (fs : Option Bool), s.hook = some fs →
       effectiveFoldStyleOf fs tok = true →
       triggerPushFnSt tok s =
         { startNewLineSt { s with hook := none, frames := clearTopFrame s.frames } with
             indentCount := s.indentCount + 1,
             isInlineContext := false :: s.isInlineContext }) ∧
    (∀ (tok : Option TokenType) (s : RState) (fs : Option Bool), s.hook = some fs →
       effectiveFoldStyleOf fs tok = false →
       triggerPushFnSt tok s =
         { s with hook := none, frames := clearTopFrame s.frames,
                  isInlineContext := true :: s.isInlineContext }) := by
  refine ⟨?_, ?_, ?_, ?_, ?_, ?_, ?_⟩
  · intro tok s h
    unfold triggerPushFnSt
    rw [h]
  · intro tok s fs h
    unfold triggerPushFnSt
    rw [h]
    dsimp only
    split
    · simp [pushTokenCoreSt, startNewLineSt_hook]
    · rfl
  · intro lTok fs s
    rfl
  · intro tok b
    rfl
  · intro tok
    constructor
    · intro h
      simp only [effectiveFoldStyleOf, Bool.not_eq_false', Bool.or_eq_true, beq_iff_eq] at h
      exact h
    · intro h
      simp only [effectiveFoldStyleOf, Bool.not_eq_false', Bool.or_eq_true, beq_iff_eq]
      exact h
  · intro tok s fs h heff
    unfold triggerPushFnSt
    rw [h]
    dsimp only
    rw [if_pos heff]
    have h1 := startNewLineSt_indentCount { s with hook := none, frames := clearTopFrame s.frames }
    have h2 := startNewLineSt_isInlineContext { s with hook := none, frames := clearTopFrame s.frames }
    simp [pushTokenCoreSt, h1, h2]
  · intro tok s fs h heff
    unfold triggerPushFnSt
    rw [h]
    dsimp only
    rw [if_neg (by simp [heff])]

/-- Witness for C2: the trigger with no armed hook is a no-op on the initial
state. -/
theorem claim2_fold_decision_witness : triggerPushFnSt none initState = initState :=
  claim2_fold_decision.1 none initState rfl

theorem process_succ_scalar {node : SchemaNode} (hsc : scalarTyped node)
    (rt : String → String → Bool) (data : SchemaNode) (f : Nat) (si : Bool) (s : RState) :
    process rt data (f + 1) node si s = processScalar node s := by
  rcases hsc with ⟨t, ht, hsup⟩ | ⟨ts, ht, hall⟩
  · rw [process, ht]
    dsimp only
    rw [if_pos (show scalarSwitchCase t = true by simp [scalarSwitchCase, hsup])]
  · rw [process, ht]
    dsimp only
    rw [if_pos hall]

/-- C3.  For a scalar or mixed node without an enum, the value handed to the
display dispatch (`pushTyped`) is `examples[0]` when defined, else `default`;
when neither is defined the walk aborts with the `MissingExample` failure
whose message contains the current dot-joined property path, and no state is
produced (the error carries no partial output). -/
theorem claim3_example_resolution :
    ∀ (rt : String → String → Bool) (data : SchemaNode) (f : Nat) (node : SchemaNode)
      (si : Bool) (s : RState),
      scalarTyped node → node.enum = none →
      ((∀ (v : JsonValue) (vs : List JsonValue), node.examples = some (v :: vs) →
          process rt data (f + 1) node si s = pushTypedSt v s) ∧
       (node.examples.bind List.head? = none → ∀ d : JsonValue, node.default = some d →
          process rt data (f + 1) node si s = pushTypedSt d s) ∧
       (node.examples.bind List.head? = none → node.default = none →
          process rt data (f + 1) node si s =
            .error (.missingExample (String.intercalate "." s.idSegments)) ∧
          ∃ pre post,
            (RenderError.missingExample (String.intercalate "." s.idSegments)).message
              = pre ++ String.intercalate "." s.idSegments ++ post)) := by
  intro rt data f node si s hsc henum
  have hred := process_succ_scalar hsc rt data f si s
  refine ⟨?_, ?_, ?_⟩
  · intro v vs hex
    rw [hred, processScalar, henum, getExampleF, hex]
    simp [bind, Except.bind]
  · intro hhead d hd
    rw [hred, processScalar, henum, getExampleF, hhead, hd]
    simp [bind, Except.bind]
  · intro hhead hd
    rw [hred, processScalar, henum, getExampleF, hhead, hd]
    exact ⟨by simp [bind, Except.bind], "Missing example (in ", ")", rfl⟩

/-- Witness for C3: the number node with `examples = [3]` hands `3` to
`pushTyped`. -/
theorem claim3_example_resolution_witness :
    process rtAll emptyNode 1 scalarDoc false initState =
      pushTypedSt (.num 3) initState :=
  (claim3_example_resolution rtAll emptyNode 0 scalarDoc false initState
    (Or.inl ⟨"number", rfl, rfl⟩) rfl).1 (.num 3) [] rfl

/-- C4.  A node with no `type` and a `$ref` is rendered by `pushReference`
alone: the emitted state is exactly the current state plus the single
`See <name>` pointer token — whose link target anchor is the name obtained by
stripping `#/properties/` from the reference — independent of the target
property's subtree, which is not recursed into; and on the concrete document
with root property `widget`, the pointer's anchor `widget` equals the section
id produced for that property. -/
theorem claim4_reference_pointer :
    (∀ (rt : String → String → Bool) (data : SchemaNode) (f : Nat) (node : SchemaNode)
       (si : Bool) (s : RState) (r : String) (props : List (String × SchemaNode)),
       node.type = .missing → node.ref = some r → data.properties = some props →
       process rt data (f + 1) node si s =
         .ok (pushOnIndentedLine (.see (replaceFirst r "#/properties/"))
           (triggerPushFnSt none s))) ∧
    ((renderJsonDoc rtAll 20 true c4doc).toOption.map
        (fun secs => (sectionIds secs, seeNames (allTokens secs)))
      = some (["widget"], ["widget"])) := by
  constructor
  · intro rt data f node si s r props ht href hprops
    rw [process, ht]
    dsimp only
    rw [processDefault, href]
    dsimp only
    rw [pushReferenceSt, hprops]
  · decide

/-- Witness for C4: the reference node of the fixture document renders as the
single `See widget` pointer. -/
theorem claim4_reference_pointer_witness :
    process rtAll c4doc 1 c4ref false initState =
      .ok (pushOnIndentedLine (.see "widget") (triggerPushFnSt none initState)) :=
  claim4_reference_pointer.1 rtAll c4doc 0 c4ref false initState "#/properties/widget"
    [("widget", c4target), ("link", c4ref)] rfl rfl rfl

/-- Counterexample to C1 as stated: one render of `c1doc` produces the
non-null section id `p` twice.  Both example keys `ax` and `bx` contain the
metacharacter-free pattern `x` as a substring, so under the host regex search
(`rtSub`) both match the pattern schema; the `exampleKeys` recursion does not
extend the property path, so both visits of the pattern schema create a
section at the same path. -/
theorem claim1_counterexample :
    (renderJsonDoc rtSub 20 true c1doc).toOption.map sectionIds = some ["p", "p"] ∧
    ¬ (["p", "p"] : List String).Nodup := by
  constructor
  · decide
  · decide

/-- C1 (amended).  Every section with a header gets as id the dot-joined
property path current when the header was created, and a section carries a
non-null id exactly when it carries a header; but the non-null ids of one
render need not be pairwise distinct — sections opened while rendering
schemas reached through `exampleKeys`/`patternProperties` matching reuse the
surrounding property path and can collide (see the counterexample). -/
theorem claim1_amended_id_iff_header :
    ∀ (rt : String → String → Bool) (fuel : Nat) (skipFirstIndent : Bool)
      (data : SchemaNode) (secs : List Sect),
      renderJsonDoc rt fuel skipFirstIndent data = .ok secs →
      ∀ sec ∈ secs, sec.id.isSome = sec.header.isSome := by
  intro rt fuel si data secs h sec hsec
  unfold renderJsonDoc at h
  cases hp : process rt data fuel data si initState with
  | error e =>
    rw [hp] at h
    exact absurd h (by simp [Except.map])
  | ok s' =>
    rw [hp] at h
    simp only [Except.map, Except.ok.injEq] at h
    subst h
    have hsteps := (steps_processAll rt data fuel).1 data si initState s' hp
    have hinv : SecInv initState.sections := by
      intro sec' hsec'
      simp only [initState, List.mem_singleton] at hsec'
      subst hsec'
      rfl
    exact hsteps.2 hinv sec hsec

/-- Witness for the amended C1 on the single section of a one-token render. -/
theorem claim1_amended_witness :
    (⟨none, none, false, [⟨0, [Tok.lit (JsonValue.num 3)]⟩]⟩ : Sect).id.isSome
      = (⟨none, none, false, [⟨0, [Tok.lit (JsonValue.num 3)]⟩]⟩ : Sect).header.isSome :=
  claim1_amended_id_iff_header rtAll 2 true scalarDoc
    [⟨none, none, false, [⟨0, [Tok.lit (JsonValue.num 3)]⟩]⟩] rfl
    ⟨none, none, false, [⟨0, [Tok.lit (JsonValue.num 3)]⟩]⟩ (List.mem_singleton_self _)

theorem updateLast_append_singleton (f : α → α) (l : List α) (x : α) :
    updateLast f (l ++ [x]) = l ++ [f x] := by
  induction l with
  | nil => rfl
  | cons a as ih =>
    cases as with
    | nil => rfl
    | cons b bs => simpa [updateLast] using ih

/-- C5.  A closed section is frozen: a successful walk never removes sections,
never changes a section that was closed when the walk started (in particular
the closed flag is never cleared), and while the last section is closed,
starting a new line or pushing a token appends a fresh header-less
continuation section with null id that receives the emission. -/
theorem claim5_closed_sections :
    (∀ (rt : String → String → Bool) (data : SchemaNode) (f : Nat) (node : SchemaNode)
       (si : Bool) (s s' : RState),
       process rt data f node si s = .ok s' →
       s.sections.length ≤ s'.sections.length ∧
       ∀ i (hi : i < s.sections.length) (hi' : i < s'.sections.length),
         (s.sections.get ⟨i, hi⟩).closed = true →
         s'.sections.get ⟨i, hi'⟩ = s.sections.get ⟨i, hi⟩) ∧
    (∀ s : RState, (lastSection s).closed = true →
       startNewLineSt s =
         { s with sections := s.sections ++ [⟨none, none, false, [⟨0, []⟩]⟩] }) ∧
    (∀ (s : RState) (tk : Tok), (lastSection s).closed = true →
       pushOnIndentedLine tk s =
         { s with sections := s.sections ++
             [⟨none, none, false, [⟨s.indentCount, [tk]⟩]⟩] }) := by
  refine ⟨?_, ?_, ?_⟩
  · intro rt data f node si s s' h
    have hsteps := (steps_processAll rt data f).1 node si s s' h
    refine ⟨sectsLe_length hsteps.1, ?_⟩
    intro i hi hi' hcl
    exact (sectsLe_get hsteps.1 i hi hi').2.2.1 hcl
  · intro s h
    unfold startNewLineSt
    rw [if_pos h]
    rfl
  · intro s tk h
    unfold pushOnIndentedLine
    rw [if_pos h]
    unfold mapLastSection startNewSectionSt
    dsimp only
    rw [updateLast_append_singleton]
    rfl

/-- Witness for C5: a new line on the closed-section state opens the
continuation section. -/
theorem claim5_closed_sections_witness :
    startNewLineSt closedState =
      { closedState with sections :=
          closedState.sections ++ [⟨none, none, false, [⟨0, []⟩]⟩] } :=
  claim5_closed_sections.2.1 closedState rfl

/-- Counterexample to C6 as stated: on a scalar node whose `enum` field is
present but empty, the render fails with `Unsupported type undefined`
(`pushTyped(node.enum[0])` on `undefined`) instead of producing the (empty)
pipe alternation the claim describes. -/
theorem claim6_counterexample :
    renderErr? (renderJsonDoc rtAll 5 true c6node)
      = some (.unsupportedType "undefined" "") ∧
    (renderJsonDoc rtAll 5 true c6node).toOption.isNone = true := by
  constructor
  · decide
  · decide

theorem pushTypedSt_scalar {v : JsonValue} (hv : supportedScalar (valueTypeOf v) = true)
    (s : RState) : pushTypedSt v s = .ok (pushLitSt v s) := by
  unfold pushTypedSt
  dsimp only
  rw [if_pos (by simpa [supportedScalar] using hv)]

theorem pushEnumRest_tokens :
    ∀ (vs : List JsonValue) (s : RState), GoodShape s →
      (∀ w ∈ vs, supportedScalar (valueTypeOf w) = true) →
      ∃ s', pushEnumRest vs s = .ok s' ∧ GoodShape s' ∧
        allTokens s'.sections = allTokens s.sections ++
          vs.flatMap (fun w => [Tok.space, Tok.syn "|", Tok.space, Tok.lit w]) := by
  intro vs
  induction vs with
  | nil =>
    intro s hg _
    exact ⟨s, rfl, hg, by simp⟩
  | cons w ws ih =>
    intro s hg hall
    have hg1 : GoodShape (pushTokenSt .SPACE s) := goodShape_pushTokenSt hg .SPACE
    have hg2 : GoodShape (pushTokenSt .PIPE (pushTokenSt .SPACE s)) :=
      goodShape_pushTokenSt hg1 .PIPE
    have hg3 : GoodShape (pushTokenSt .SPACE (pushTokenSt .PIPE (pushTokenSt .SPACE s))) :=
      goodShape_pushTokenSt hg2 .SPACE
    have hw : supportedScalar (valueTypeOf w) = true := hall w (by simp)
    have hptyped := pushTypedSt_scalar hw
      (pushTokenSt .SPACE (pushTokenSt .PIPE (pushTokenSt .SPACE s)))
    obtain ⟨s', hrun, hg', htoks⟩ := ih
      (pushLitSt w (pushTokenSt .SPACE (pushTokenSt .PIPE (pushTokenSt .SPACE s))))
      (goodShape_pushLitSt hg3 w) (fun x hx => hall x (by simp [hx]))
    refine ⟨s', ?_, hg', ?_⟩
    · rw [pushEnumRest]
      simp only [bind, Except.bind]
      rw [hptyped]
      exact hrun
    · rw [htoks]
      have e1 : allTokens (pushTokenSt .SPACE s).sections
          = allTokens s.sections ++ [Tok.space] := allTokens_pushTokenSt hg .SPACE .space rfl
      have e2 : allTokens (pushTokenSt .PIPE (pushTokenSt .SPACE s)).sections
          = allTokens (pushTokenSt .SPACE s).sections ++ [Tok.syn "|"] :=
        allTokens_pushTokenSt hg1 .PIPE (.syn "|") rfl
      have e3 : allTokens (pushTokenSt .SPACE (pushTokenSt .PIPE (pushTokenSt .SPACE s))).sections
          = allTokens (pushTokenSt .PIPE (pushTokenSt .SPACE s)).sections ++ [Tok.space] :=
        allTokens_pushTokenSt hg2 .SPACE .space rfl
      have e4 := goodShape_and_allTokens_pushLitSt hg3 w
      rw [e4, e3, e2, e1]
      simp

/-- C6 (amended).  For a scalar or mixed node whose `enum` is present and
non-empty with scalar-typed members, the render succeeds whatever `examples`
and `default` hold (they are ignored), and appends exactly the alternation:
the first member unprefixed, each later member preceded by space, `|`,
space. -/
theorem claim6_amended_enum_alternation :
    ∀ (rt : String → String → Bool) (data : SchemaNode) (f : Nat) (node : SchemaNode)
      (si : Bool) (s : RState) (v : JsonValue) (vs : List JsonValue),
      GoodShape s → scalarTyped node → node.enum = some (v :: vs) →
      supportedScalar (valueTypeOf v) = true →
      (∀ w ∈ vs, supportedScalar (valueTypeOf w) = true) →
      ∃ s', process rt data (f + 1) node si s = .ok s' ∧
        allTokens s'.sections = allTokens s.sections ++
          (Tok.lit v :: vs.flatMap (fun w => [Tok.space, Tok.syn "|", Tok.space, Tok.lit w])) := by
  intro rt data f node si s v vs hg hsc henum hv hall
  have hred := process_succ_scalar hsc rt data f si s
  have hptyped := pushTypedSt_scalar hv s
  obtain ⟨s', hrun, hg', htoks⟩ := pushEnumRest_tokens vs (pushLitSt v s)
    (goodShape_pushLitSt hg v) hall
  refine ⟨s', ?_, ?_⟩
  · rw [hred, processScalar, henum]
    dsimp only
    simp only [bind, Except.bind]
    rw [hptyped]
    exact hrun
  · rw [htoks, goodShape_and_allTokens_pushLitSt hg v]
    simp

/-- Witness for the amended C6 on the two-member string enum. -/
theorem claim6_amended_witness :
    ∃ s', process rtAll emptyNode 1 c6good false initState = .ok s' ∧
      allTokens s'.sections = allTokens initState.sections ++
        (Tok.lit (.str "a") :: [JsonValue.str "b"].flatMap
          (fun w => [Tok.space, Tok.syn "|", Tok.space, Tok.lit w])) :=
  claim6_amended_enum_alternation rtAll emptyNode 0 c6good false initState
    (.str "a") [.str "b"] goodShape_initState (Or.inl ⟨"string", rfl, rfl⟩) rfl rfl
    (by intro w hw; simp at hw; subst hw; rfl)

/-- C7.  Example keys are matched against the `patternProperties` entries in
declaration order with the host regular-expression search: with enough fuel,
the first matching entry's schema is the one recursed into, and when no entry
matches the walk pushes the literal `error` identifier and succeeds; on the
concrete fallback document the key `xyz` yields the `error` identifier while
the following key `foobar` is still rendered. -/
theorem claim7_pattern_matching :
    (∀ (rt : String → String → Bool) (data : SchemaNode) (f : Nat)
       (pats : List (String × SchemaNode)) (key : String) (s : RState),
       pats.length < f → (∀ p ∈ pats, rt p.1 key = false) →
       processPattern rt data f pats key s = .ok (pushIdentifierSt "error" s)) ∧
    (∀ (rt : String → String → Bool) (data : SchemaNode) (f : Nat)
       (pats : List (String × SchemaNode)) (key : String) (s : RState)
       (pr : String × SchemaNode),
       pats.length < f → pats.find? (fun e => rt e.1 key) = some pr →
       ∃ f', f' < f ∧
         processPattern rt data f pats key s = process rt data f' pr.2 false s) ∧
    ((renderJsonDoc rt7 20 true c7doc).toOption.map
        (fun secs => identNames (allTokens secs)) = some ["xyz", "error", "foobar"]) := by
  refine ⟨?_, ?_, ?_⟩
  · intro rt data f pats key s hlt hnone
    induction pats generalizing f s with
    | nil =>
      cases f with
      | zero => simp at hlt
      | succ f0 => rw [processPattern]
    | cons pr rest ih =>
      obtain ⟨pat, spec⟩ := pr
      cases f with
      | zero => simp at hlt
      | succ f0 =>
        rw [processPattern]
        rw [if_neg (by simp [hnone (pat, spec) (by simp)])]
        exact ih f0 s (by simpa using Nat.lt_of_succ_lt_succ hlt)
          (fun p hp => hnone p (List.mem_cons_of_mem _ hp))
  · intro rt data f pats key s pr hlt hfind
    induction pats generalizing f s with
    | nil => simp at hfind
    | cons hd rest ih =>
      obtain ⟨pat, spec⟩ := hd
      cases f with
      | zero => simp at hlt
      | succ f0 =>
        rw [processPattern]
        by_cases hm : rt pat key = true
        · rw [if_pos hm]
          rw [List.find?_cons_of_pos _ (by simpa using hm)] at hfind
          simp only [Option.some.injEq] at hfind
          subst hfind
          exact ⟨f0, Nat.lt_succ_self f0, rfl⟩
        · rw [if_neg hm]
          rw [List.find?_cons_of_neg _ (by simpa using hm)] at hfind
          obtain ⟨f', hlt', heq⟩ := ih f0 s (by simpa using Nat.lt_of_succ_lt_succ hlt) hfind
          exact ⟨f', Nat.lt_succ_of_lt hlt', heq⟩
  · decide

/-- Witness for C7: the single pattern `^foo` does not match `xyz`, so the
`error` identifier is pushed. -/
theorem claim7_pattern_matching_witness :
    processPattern rt7 emptyNode 2 [("^foo", c7spec)] "xyz" initState
      = .ok (pushIdentifierSt "error" initState) :=
  claim7_pattern_matching.1 rt7 emptyNode 2 [("^foo", c7spec)] "xyz" initState
    (by decide) (by intro p hp; simp only [List.mem_singleton] at hp; subst hp; decide)

/-- C8.  A declared property whose name is absent from a truthy driving
example (`examples[0]`) is skipped entirely: its loop iteration is the
identity on the state, equal to the loop continued on the remaining
properties; and on the concrete `{a, b}` document driven by `{a: 1}` the
identifier tokens of the render are exactly `["a"]`, so `a` is rendered and
`b` is not. -/
theorem claim8_example_omission :
    (∀ (rt : String → String → Bool) (data : SchemaNode) (f : Nat)
       (node propertyNode : SchemaNode) (propertyName : String)
       (rest : List (String × SchemaNode)) (t total : Nat) (s : RState)
       (e0 : JsonValue) (tl : List JsonValue),
       node.examples = some (e0 :: tl) → truthy e0 = true →
       jsIndex e0 propertyName = none →
       processProps rt data (f + 1) node ((propertyName, propertyNode) :: rest) t total s
         = processProps rt data f node rest (t + 1) total s) ∧
    (∃ names, (renderJsonDoc rtAll 20 true c8doc).toOption.map
        (fun secs => identNames (allTokens secs)) = some names ∧
      "a" ∈ names ∧ "b" ∉ names) := by
  constructor
  · intro rt data f node propertyNode propertyName rest t total s e0 tl hex htr hidx
    rw [processProps]
    have hcond : (match node.examples.bind List.head? with
        | some e0 => truthy e0 && (jsIndex e0 propertyName).isNone
        | none => false) = true := by
      rw [hex]
      simp [htr, hidx]
    rw [if_pos hcond]
  · exact ⟨["a"], by decide, by decide, by decide⟩

/-- Witness for C8: property `b` of the fixture is skipped because the
driving example `{a: 1}` has no `b`. -/
theorem claim8_example_omission_witness :
    processProps rtAll emptyNode 3 c8doc [("b", c8a)] 1 2 initState
      = processProps rtAll emptyNode 2 c8doc [] 2 2 initState :=
  claim8_example_omission.1 rtAll emptyNode 2 c8doc c8a "b" [] 1 2 initState
    (.obj [("a", .num 1)]) [] rfl rfl rfl

theorem min?_sub_self {xs : List Nat} (h : xs ≠ []) :
    (xs.map (fun a => a - xs.min?.getD 0)).min? = some 0 := by
  cases hmin : xs.min? with
  | none => exact absurd (List.min?_eq_none_iff.mp hmin) h
  | some m =>
    have hspec := List.min?_eq_some_iff (fun a => Nat.le_refl a)
      (fun a b => min_choice a b) (fun a b c => Nat.le_min) |>.mp hmin
    rw [List.min?_eq_some_iff (fun a => Nat.le_refl a)
      (fun a b => min_choice a b) (fun a b c => Nat.le_min)]
    constructor
    · exact List.mem_map.mpr ⟨m, hspec.1, by simp⟩
    · intro b hb
      exact Nat.zero_le b

/-- C9.  After the per-section normalization of the render step (each line's
indent shifted down by the section's minimum non-empty-line indent), the
minimum indent among a section's non-empty lines is 0, for every section of
every successful render that has a non-empty line. -/
theorem claim9_indent_normalization :
    ∀ (rt : String → String → Bool) (fuel : Nat) (skipFirstIndent : Bool)
      (data : SchemaNode) (secs : List Sect),
      renderJsonDoc rt fuel skipFirstIndent data = .ok secs →
      ∀ sec ∈ secs, sec.lines.filter (fun line => !line.tokens.isEmpty) ≠ [] →
        sectionIndent (normalizeSection sec).lines = 0 := by
  intro rt fuel si data secs hrender sec hsec hne
  unfold sectionIndent normalizeSection
  dsimp only
  rw [List.filter_map]
  have hcomp : ((fun line => !line.tokens.isEmpty) ∘
      (fun line => { line with indent := line.indent - sectionIndent sec.lines } : Line → Line))
      = fun line => !line.tokens.isEmpty := by
    funext line
    rfl
  rw [hcomp]
  rw [List.map_map]
  have hmapcomp : ((fun l : Line => l.indent) ∘
      (fun line => { line with indent := line.indent - sectionIndent sec.lines } : Line → Line))
      = fun line : Line => line.indent - sectionIndent sec.lines := by
    funext line
    rfl
  rw [hmapcomp]
  have hxs : (sec.lines.filter (fun line => !line.tokens.isEmpty)).map
      (fun line : Line => line.indent - sectionIndent sec.lines)
      = ((sec.lines.filter (fun line => !line.tokens.isEmpty)).map (fun l : Line => l.indent)).map
          (fun a => a - sectionIndent sec.lines) := by
    rw [List.map_map]
    rfl
  rw [hxs]
  have hne' : (sec.lines.filter (fun line => !line.tokens.isEmpty)).map (fun l : Line => l.indent)
      ≠ [] := by
    simpa using hne
  have := min?_sub_self hne'
  unfold sectionIndent
  rw [this]
  rfl

/-- Witness for C9 on the one-token render of the scalar fixture. -/
theorem claim9_indent_normalization_witness :
    sectionIndent (normalizeSection ⟨none, none, false,
      [⟨0, [Tok.lit (JsonValue.num 3)]⟩]⟩).lines = 0 :=
  claim9_indent_normalization rtAll 2 true scalarDoc
    [⟨none, none, false, [⟨0, [Tok.lit (JsonValue.num 3)]⟩]⟩] rfl
    ⟨none, none, false, [⟨0, [Tok.lit (JsonValue.num 3)]⟩]⟩
    (List.mem_singleton_self _) (by simp)

theorem flat_initState : FlatState initState := by
  refine ⟨goodShape_initState, rfl, rfl, ?_, ?_⟩
  · intro sec hsec line hline
    simp only [initState, List.mem_singleton] at hsec
    subst hsec
    simp only [List.mem_singleton] at hline
    subst hline
    rfl
  · intro tk htk
    simp [initState, allTokens, sectTokens] at htk

theorem flat_transport {s s' : RState} (h : FlatState s) (hsec : s'.sections = s.sections)
    (hic : s'.indentCount = s.indentCount) (hh : s'.hook = s.hook) : FlatState s' := by
  obtain ⟨hg, hi, hk, hind, htk⟩ := h
  exact ⟨goodShape_sections_eq hg hsec, by rw [hic, hi], by rw [hh, hk],
    by rw [hsec]; exact hind, by rw [hsec]; exact htk⟩

theorem flat_startNewSectionSt {s : RState} (h : FlatState s) (header : Option String) :
    FlatState (startNewSectionSt header s) := by
  obtain ⟨hg, hi, hk, hind, htk⟩ := h
  refine ⟨goodShape_startNewSectionSt hg header, hi, hk, ?_, ?_⟩
  · intro sec hsec line hline
    simp only [startNewSectionSt, List.mem_append, List.mem_singleton] at hsec
    rcases hsec with hsec | hsec
    · exact hind sec hsec line hline
    · subst hsec
      simp only [List.mem_singleton] at hline
      subst hline
      rfl
  · intro tk htk'
    rw [show (startNewSectionSt header s).sections = s.sections ++
      [⟨if header.isSome then some (String.intercalate "." s.idSegments) else none,
        header, false, [⟨0, []⟩]⟩] from rfl, allTokens_append] at htk'
    simp only [List.mem_append] at htk'
    rcases htk' with htk' | htk'
    · exact htk tk htk'
    · simp [allTokens, sectTokens] at htk'

theorem allTokens_closeSectionSt (s : RState) :
    allTokens (closeSectionSt s).sections = allTokens s.sections := by
  unfold closeSectionSt mapLastSection
  dsimp only
  cases hs : s.sections with
  | nil => simp [updateLast]
  | cons a as =>
    have := @allTokens_updateLast (a :: as) (by simp)
      (fun sec => if sec.header.isSome then { sec with closed := true } else sec)
      ([] : List Tok)
      (by intro sec hsec
          by_cases hh : sec.header.isSome = true
          · simp [hh, sectTokens]
          · simp [hh, sectTokens])
    simpa using this

theorem flat_closeSectionSt {s : RState} (h : FlatState s) : FlatState (closeSectionSt s) := by
  obtain ⟨hg, hi, hk, hind, htk⟩ := h
  refine ⟨goodShape_closeSectionSt hg, hi, hk, ?_, ?_⟩
  · intro sec hsec line hline
    rcases mem_updateLast hsec with hm | ⟨x, hx, hfx⟩
    · exact hind sec hm line hline
    · subst hfx
      rcases (show (if x.header.isSome then { x with closed := true } else x).lines = x.lines
        from by split <;> rfl) ▸ hline with hline'
      exact hind x hx line hline'
  · rw [allTokens_closeSectionSt]
    exact htk

theorem flat_startNewLineSt {s : RState} (h : FlatState s) : FlatState (startNewLineSt s) := by
  obtain ⟨hg, hi, hk, hind, htk⟩ := h
  refine ⟨goodShape_startNewLineSt hg, by rw [startNewLineSt_indentCount]; exact hi,
    by rw [startNewLineSt_hook]; exact hk, ?_, ?_⟩
  · intro sec hsec line hline
    unfold startNewLineSt at hsec
    split at hsec
    · simp only [startNewSectionSt, List.mem_append, List.mem_singleton] at hsec
      rcases hsec with hsec | hsec
      · exact hind sec hsec line hline
      · subst hsec
        simp only [List.mem_singleton] at hline
        subst hline
        rfl
    · rcases mem_updateLast hsec with hm | ⟨x, hx, hfx⟩
      · exact hind sec hm line hline
      · subst hfx
        simp only [List.mem_append, List.mem_singleton] at hline
        rcases hline with hline | hline
        · exact hind x hx line hline
        · subst hline
          rfl
  · rw [allTokens_startNewLineSt]
    exact htk

theorem flat_pushOnIndentedLine {s : RState} (h : FlatState s) (tk : Tok)
    (htk : tk ≠ .syn "\x7b" ∧ tk ≠ .syn "\x7d") : FlatState (pushOnIndentedLine tk s) := by
  have htoks := allTokens_pushOnIndentedLine h.1 tk
  obtain ⟨hg, hi, hk, hind, htks⟩ := h
  have hind' : ∀ sec ∈ (pushOnIndentedLine tk s).sections, ∀ line ∈ sec.lines,
      line.indent = 0 := by
    intro sec hsec line hline
    unfold pushOnIndentedLine at hsec
    split at hsec
    · rcases mem_updateLast hsec with hm | ⟨x, hx, hfx⟩
      · simp only [startNewSectionSt, List.mem_append, List.mem_singleton] at hm
        rcases hm with hm | hm
        · exact hind sec hm line hline
        · subst hm
          simp only [List.mem_singleton] at hline
          subst hline
          rfl
      · subst hfx
        simp only [startNewSectionSt, List.mem_append, List.mem_singleton] at hx
        rcases hx with hx | hx
        · rcases mem_updateLast hline with hl | ⟨y, hy, hfy⟩
          · exact hind x hx line hl
          · subst hfy
            have := hind x hx y hy
            simp [lineAddTok, this, startNewSectionSt, hi]
        · subst hx
          rcases mem_updateLast hline with hl | ⟨y, hy, hfy⟩
          · simp only [List.mem_singleton] at hl
            subst hl
            rfl
          · subst hfy
            simp only [List.mem_singleton] at hy
            subst hy
            simp [lineAddTok, startNewSectionSt, hi]
    · rcases mem_updateLast hsec with hm | ⟨x, hx, hfx⟩
      · exact hind sec hm line hline
      · subst hfx
        rcases mem_updateLast hline with hl | ⟨y, hy, hfy⟩
        · exact hind x hx line hl
        · subst hfy
          have := hind x hx y hy
          simp [lineAddTok, this, hi]
  refine ⟨goodShape_pushOnIndentedLine hg tk, ?_, ?_, hind', ?_⟩
  · rw [show (pushOnIndentedLine tk s).indentCount = s.indentCount from ?_]
    · exact hi
    · unfold pushOnIndentedLine mapLastSection
      split <;> rfl
  · rw [show (pushOnIndentedLine tk s).hook = s.hook from ?_]
    · exact hk
    · unfold pushOnIndentedLine mapLastSection
      split <;> rfl
  · intro tk' htk'
    rw [htoks] at htk'
    simp only [List.mem_append, List.mem_singleton] at htk'
    rcases htk' with htk' | htk'
    · exact htks tk' htk'
    · subst htk'
      exact htk

theorem flat_triggerPushFnSt {s : RState} (h : FlatState s) (tok : Option TokenType) :
    triggerPushFnSt tok s = s := by
  unfold triggerPushFnSt
  rw [h.2.2.1]

theorem flat_pushTokenSt {s : RState} (h : FlatState s) (t : TokenType)
    (ht : t ≠ .L_CURLY ∧ t ≠ .R_CURLY) : FlatState (pushTokenSt t s) := by
  unfold pushTokenSt
  rw [flat_triggerPushFnSt h]
  cases t with
  | L_CURLY => exact absurd rfl ht.1
  | R_CURLY => exact absurd rfl ht.2
  | L_BRACKET => exact flat_pushOnIndentedLine h _ (by constructor <;> simp)
  | R_BRACKET => exact flat_pushOnIndentedLine h _ (by constructor <;> simp)
  | COMMA => exact flat_pushOnIndentedLine h _ (by constructor <;> simp)
  | COLON => exact flat_pushOnIndentedLine h _ (by constructor <;> simp)
  | PIPE => exact flat_pushOnIndentedLine h _ (by constructor <;> simp)
  | SPACE => exact flat_pushOnIndentedLine h _ (by constructor <;> simp)
  | NL => exact flat_startNewLineSt h

theorem flat_pushIdentifierSt {s : RState} (h : FlatState s) (name : String) :
    FlatState (pushIdentifierSt name s) := by
  unfold pushIdentifierSt
  rw [flat_triggerPushFnSt h]
  exact flat_pushOnIndentedLine h _ (by constructor <;> simp)

theorem flat_pushLitSt {s : RState} (h : FlatState s) (v : JsonValue) :
    FlatState (pushLitSt v s) := by
  unfold pushLitSt
  rw [flat_triggerPushFnSt h]
  exact flat_pushOnIndentedLine h _ (by constructor <;> simp)

theorem process_scalarLeaf {pn : SchemaNode} (hn : scalarLeafProp pn)
    (rt : String → String → Bool) (data : SchemaNode) (f : Nat) (si : Bool) (s : RState) :
    ∃ v, process rt data (f + 1) pn si s = .ok (pushLitSt v s) := by
  obtain ⟨hsc, henum, ⟨v, vs, hex, hv⟩⟩ := hn
  refine ⟨v, ?_⟩
  rw [process_succ_scalar (Or.inl hsc) rt data f si s, processScalar, henum, getExampleF, hex]
  simp only [Option.some_bind, List.head?_cons, bind, Except.bind]
  exact pushTypedSt_scalar hv s

theorem flat_processProps :
    ∀ (entries : List (String × SchemaNode)) (rt : String → String → Bool)
      (data : SchemaNode) (f : Nat) (root : SchemaNode) (t total : Nat) (s : RState),
      root.examples = none →
      (∀ e ∈ entries, scalarLeafProp e.2) →
      entries.length + 1 ≤ f →
      FlatState s →
      ∃ s', processProps rt data f root entries t total s = .ok s' ∧ FlatState s' := by
  intro entries
  induction entries with
  | nil =>
    intro rt data f root t total s hexnone hleaf hfuel hflat
    cases f with
    | zero => simp at hfuel
    | succ f0 =>
      rw [processProps]
      exact ⟨s, rfl, hflat⟩
  | cons entry rest ih =>
    intro rt data f root t total s hexnone hleaf hfuel hflat
    obtain ⟨propertyName, propertyNode⟩ := entry
    cases f with
    | zero => simp at hfuel
    | succ f0 =>
      rw [processProps]
      have hskip : (match root.examples.bind List.head? with
          | some e0 => truthy e0 && (jsIndex e0 propertyName).isNone
          | none => false) = false := by
        rw [hexnone]
        rfl
      rw [hskip]
      simp only [Bool.false_eq_true, if_neg, not_false_iff]
      have hflat0 : FlatState { s with idSegments := s.idSegments ++ [propertyName] } :=
        flat_transport hflat rfl rfl rfl
      have hflatA : FlatState (if getDescription propertyNode != "" then
          startNewSectionSt (some (getDescription propertyNode))
            { s with idSegments := s.idSegments ++ [propertyName] }
          else { s with idSegments := s.idSegments ++ [propertyName] }) := by
        split
        · exact flat_startNewSectionSt hflat0 _
        · exact hflat0
      have hflatB := flat_pushTokenSt (flat_pushTokenSt
        (flat_pushIdentifierSt hflatA propertyName) .COLON (by constructor <;> simp))
        .SPACE (by constructor <;> simp)
      have hchild : childNodeOf root propertyNode propertyName = pure propertyNode := by
        rw [childNodeOf, hexnone]
      rw [hchild]
      simp only [pure, Except.pure, bind, Except.bind]
      have hleafhd : scalarLeafProp propertyNode := hleaf (propertyName, propertyNode) (by simp)
      cases f0 with
      | zero => simp at hfuel
      | succ f1 =>
        obtain ⟨v, hvrun⟩ := process_scalarLeaf hleafhd rt data f1 false _
        rw [hvrun]
        set sB := pushTokenSt .SPACE (pushTokenSt .COLON (pushIdentifierSt propertyName
          (if getDescription propertyNode != "" then
            startNewSectionSt (some (getDescription propertyNode))
              { s with idSegments := s.idSegments ++ [propertyName] }
            else { s with idSegments := s.idSegments ++ [propertyName] }))) with hsB
        have hflatLit : FlatState (pushLitSt v sB) := flat_pushLitSt hflatB v
        have hflatSep : FlatState (if (pushLitSt v sB).isInlineContext.headD false then
            (if t + 1 < total then pushTokenSt .SPACE (pushTokenSt .COMMA (pushLitSt v sB))
              else pushLitSt v sB)
            else pushTokenSt .NL (pushTokenSt .COMMA (pushLitSt v sB))) := by
          split
          · split
            · exact flat_pushTokenSt (flat_pushTokenSt hflatLit .COMMA
                (by constructor <;> simp)) .SPACE (by constructor <;> simp)
            · exact hflatLit
          · exact flat_pushTokenSt (flat_pushTokenSt hflatLit .COMMA
              (by constructor <;> simp)) .NL (by constructor <;> simp)
        have hflatDrop : FlatState { (if (pushLitSt v sB).isInlineContext.headD false then
            (if t + 1 < total then pushTokenSt .SPACE (pushTokenSt .COMMA (pushLitSt v sB))
              else pushLitSt v sB)
            else pushTokenSt .NL (pushTokenSt .COMMA (pushLitSt v sB))) with
              idSegments := (if (pushLitSt v sB).isInlineContext.headD false then
                (if t + 1 < total then pushTokenSt .SPACE (pushTokenSt .COMMA (pushLitSt v sB))
                  else pushLitSt v sB)
                else pushTokenSt .NL (pushTokenSt .COMMA (pushLitSt v sB))).idSegments.dropLast } :=
          flat_transport hflatSep rfl rfl rfl
        have hflatClose : FlatState (if getDescription propertyNode != "" then
            closeSectionSt { (if (pushLitSt v sB).isInlineContext.headD false then
              (if t + 1 < total then pushTokenSt .SPACE (pushTokenSt .COMMA (pushLitSt v sB))
                else pushLitSt v sB)
              else pushTokenSt .NL (pushTokenSt .COMMA (pushLitSt v sB))) with
                idSegments := (if (pushLitSt v sB).isInlineContext.headD false then
                  (if t + 1 < total then pushTokenSt .SPACE (pushTokenSt .COMMA (pushLitSt v sB))
                    else pushLitSt v sB)
                  else pushTokenSt .NL (pushTokenSt .COMMA (pushLitSt v sB))).idSegments.dropLast }
            else { (if (pushLitSt v sB).isInlineContext.headD false then
              (if t + 1 < total then pushTokenSt .SPACE (pushTokenSt .COMMA (pushLitSt v sB))
                else pushLitSt v sB)
              else pushTokenSt .NL (pushTokenSt .COMMA (pushLitSt v sB))) with
                idSegments := (if (pushLitSt v sB).isInlineContext.headD false then
                  (if t + 1 < total then pushTokenSt .SPACE (pushTokenSt .COMMA (pushLitSt v sB))
                    else pushLitSt v sB)
                  else pushTokenSt .NL (pushTokenSt .COMMA (pushLitSt v sB))).idSegments.dropLast }) := by
          split
          · exact flat_closeSectionSt hflatDrop
          · exact hflatDrop
        obtain ⟨s', hrun', hflat'⟩ := ih rt data (Nat.succ f1) root (t + 1) total _
          hexnone (fun e he => hleaf e (List.mem_cons_of_mem _ he))
          (by simpa using Nat.le_of_succ_le_succ hfuel) hflatClose
        exact ⟨s', hrun', hflat'⟩

/-- C10.  By default (`skipFirstIndent = true`) the walk of an object root
skips the root container's punctuation and fold machinery entirely.  First,
for every object-typed root and any state, `process` with `skipIndent` set
reduces in one step to the `injectObject` closure: no `{` is pushed, no
`isEmpty` frame is opened and no hook is armed (so no fold decision is
taken), and no closing `}` follows.  Second, the default render of any
object-typed root is therefore exactly `injectObject` applied to the root
from the initial state.  Third, the visible consequence: for a root whose
declared properties are scalar leaves, the render succeeds, its output
contains no `{` or `}` token at all, and every line sits at indent depth
0. -/
theorem claim10_skip_first_indent :
    (∀ (rt : String → String → Bool) (data root : SchemaNode) (f : Nat) (s : RState),
      root.type = .single "object" →
      process rt data (f + 1) root true s = processInjectObject rt data f root s) ∧
    (∀ (rt : String → String → Bool) (root : SchemaNode) (f : Nat),
      root.type = .single "object" →
      renderJsonDocDefault rt (f + 1) root
        = (processInjectObject rt root f root initState).map (·.sections)) ∧
    (∀ (rt : String → String → Bool) (f : Nat) (root : SchemaNode)
      (entries : List (String × SchemaNode)),
      root.type = .single "object" → root.exampleKeys = none → root.uExampleKeys = none →
      root.examples = none → root.properties = some entries →
      (∀ e ∈ entries, scalarLeafProp e.2) →
      entries.length + 1 ≤ f →
      ∃ secs, renderJsonDocDefault rt (f + 2) root = .ok secs ∧
        (∀ tk ∈ allTokens secs, tk ≠ .syn "\x7b" ∧ tk ≠ .syn "\x7d") ∧
        (∀ sec ∈ secs, ∀ line ∈ sec.lines, line.indent = 0)) := by
  have hgen : ∀ (rt : String → String → Bool) (data root : SchemaNode) (f : Nat) (s : RState),
      root.type = .single "object" →
      process rt data (f + 1) root true s = processInjectObject rt data f root s := by
    intro rt data root f s htype
    rw [show f + 1 = Nat.succ f from rfl, process, htype]
    dsimp only
    rw [if_neg (by decide), if_neg (by decide), if_pos (by decide), if_pos rfl]
  refine ⟨hgen, ?_, ?_⟩
  · intro rt root f htype
    unfold renderJsonDocDefault renderJsonDoc
    rw [hgen rt root root f initState htype]
  · intro rt f root entries htype hek huek hexnone hprops hleaf hfuel
    obtain ⟨s', hrun, hflat'⟩ := flat_processProps entries rt root f root 0 entries.length
      initState hexnone hleaf hfuel flat_initState
    refine ⟨s'.sections, ?_, hflat'.2.2.2.2, hflat'.2.2.2.1⟩
    unfold renderJsonDocDefault renderJsonDoc
    rw [show f + 2 = (f + 1) + 1 from rfl, hgen rt root root (f + 1) initState htype]
    rw [processInjectObject, hek, huek]
    simp only [Option.none_orElse]
    rw [hprops]
    dsimp only
    rw [hrun]
    rfl

/-- Witness for C10: the one-property root renders brace-free at indent 0. -/
theorem claim10_skip_first_indent_witness :
    ∃ secs, renderJsonDocDefault rtAll (2 + 2) c10root = .ok secs ∧
      (∀ tk ∈ allTokens secs, tk ≠ .syn "\x7b" ∧ tk ≠ .syn "\x7d") ∧
      (∀ sec ∈ secs, ∀ line ∈ sec.lines, line.indent = 0) :=
  claim10_skip_first_indent.2.2 rtAll 2 c10root [("x", c8a)] rfl rfl rfl rfl rfl
    (by intro e he
        simp only [List.mem_singleton] at he
        subst he
        exact ⟨⟨"number", rfl, rfl⟩, rfl, ⟨.num 3, [], rfl, rfl⟩⟩)
    (by decide)

end ReactJsonDoc
